import Mathlib

/- Verification of the asciicast reader/writer core (src/asciicast.rs).

   Modelling conventions:
   * Rust strings are modelled as `List Char` (unicode scalar values).
   * Machine integers (`u8`, `u16`, `u64`) are modelled as `Nat`, with an
     explicit `% 2 ^ 64` where the source's `u64` arithmetic can wrap
     (release-mode Rust semantics).
   * `serde_json` is the JSON grammar: a fueled JSON text parser and the
     derive-style record decoders are given below.
   * JSON numbers are carried as their textual token.  The source's
     `value.as_f64().map(|v| v.to_string())` step is modelled by
     `f64Render`, the exact-decimal normalization of the token; this agrees
     with Rust's shortest-round-trip `f64` formatting for every token whose
     decimal value has at most 15 significant digits (such tokens convert
     to `f64` and back without change), and is exact-decimal beyond that. -/

namespace Asciicast

abbrev Str := List Char

/-- JSON whitespace characters (also the ASCII fragment of Rust's
`str::trim`, which is all that ever reaches it here). -/
def isWsChar (c : Char) : Bool :=
  c.toNat = 32 || c.toNat = 9 || c.toNat = 10 || c.toNat = 13

def isDigitC (c : Char) : Bool := 48 ≤ c.toNat && c.toNat ≤ 57

def digitVal (c : Char) : Nat := c.toNat - 48

def digitChar (d : Nat) : Char := Char.ofNat (48 + d)

/-- Numeric value of a most-significant-first decimal digit string. -/
def natOfDigits (l : Str) : Nat := l.foldl (fun a c => a * 10 + digitVal c) 0

def natReprAux : Nat → Nat → Str
  | 0, _ => []
  | _ + 1, 0 => []
  | f + 1, n + 1 => natReprAux f ((n + 1) / 10) ++ [digitChar ((n + 1) % 10)]

/-- Decimal rendering of a natural number (Rust's `Display` for the
unsigned integer types). -/
def natRepr (n : Nat) : Str := if n = 0 then ['0'] else natReprAux n n

/-- The `u64` modulus. -/
def U64MOD : Nat := 2 ^ 64

/-- Rust's `str::parse::<u64>`: an optional `+` sign, then one or more
digits; fails on empty input, other characters, or overflow. -/
def parseU64 (s : Str) : Option Nat :=
  let t := if s.head? = some '+' then s.tail else s
  if t.isEmpty then none
  else if t.all isDigitC then
    if natOfDigits t < U64MOD then some (natOfDigits t) else none
  else none

/-- Left-pad a string with `'0'` to width `w` (Rust's `{:0>6}`). -/
def padLeftZeros (w : Nat) (s : Str) : Str := List.replicate (w - s.length) '0' ++ s

/-- `format_time` from the source: `format!("{}.{:0>6}", time / 1_000_000,
time % 1_000_000)`. -/
def format_time (t : Nat) : Str :=
  natRepr (t / 1000000) ++ '.' :: padLeftZeros 6 (natRepr (t % 1000000))

/-- Rust's `trim_end_matches('0')`: remove every trailing `'0'`. -/
def trimZeros (s : Str) : Str := (s.reverse.dropWhile (fun c => c = '0')).reverse

/-- The textual time encoding used for events:
`format_time(event.time).trim_end_matches('0')` (from `serialize_event`). -/
def encodeTime (t : Nat) : Str := trimZeros (format_time t)

/- ----------------------------------------------------------------
   Basic lemmas about digits, `natRepr` and trimming.
   ---------------------------------------------------------------- -/

theorem natOfDigits_append (a b : Str) :
    natOfDigits (a ++ b) = b.foldl (fun x c => x * 10 + digitVal c) (natOfDigits a) := by
  simp [natOfDigits, List.foldl_append]

theorem natOfDigits_snoc (a : Str) (c : Char) :
    natOfDigits (a ++ [c]) = natOfDigits a * 10 + digitVal c := by
  simp [natOfDigits_append, natOfDigits]

theorem digitVal_digitChar {d : Nat} (h : d < 10) : digitVal (digitChar d) = d := by
  interval_cases d <;> decide

theorem isDigitC_digitChar {d : Nat} (h : d < 10) : isDigitC (digitChar d) = true := by
  interval_cases d <;> decide

theorem natOfDigits_natReprAux : ∀ f n, n < 10 ^ f → natOfDigits (natReprAux f n) = n := by
  intro f
  induction f with
  | zero => intro n h; interval_cases n; simp [natReprAux, natOfDigits]
  | succ f ih =>
    intro n h
    match n with
    | 0 => simp [natReprAux, natOfDigits]
    | n + 1 =>
      have hdiv : (n + 1) / 10 < 10 ^ f := by
        have : n + 1 < 10 ^ f * 10 := by
          calc n + 1 < 10 ^ (f + 1) := h
          _ = 10 ^ f * 10 := by ring
        omega
      rw [natReprAux, natOfDigits_snoc, ih _ hdiv, digitVal_digitChar (Nat.mod_lt _ (by norm_num))]
      omega

theorem lt_ten_pow_self (n : Nat) : n < 10 ^ n :=
  Nat.lt_pow_self (by norm_num) n

theorem natOfDigits_natRepr (n : Nat) : natOfDigits (natRepr n) = n := by
  unfold natRepr
  split
  · rename_i h; subst h; decide
  · exact natOfDigits_natReprAux n n (lt_ten_pow_self n)

theorem natReprAux_all_digits : ∀ f n, (natReprAux f n).all isDigitC = true := by
  intro f
  induction f with
  | zero => intro n; simp [natReprAux]
  | succ f ih =>
    intro n
    match n with
    | 0 => simp [natReprAux]
    | n + 1 =>
      rw [natReprAux, List.all_append, ih]
      simp [isDigitC_digitChar (Nat.mod_lt _ (by norm_num))]

theorem natRepr_all_digits (n : Nat) : (natRepr n).all isDigitC = true := by
  unfold natRepr; split
  · decide
  · exact natReprAux_all_digits n n

theorem natReprAux_ne_nil : ∀ f n, 0 < f → 0 < n → natReprAux f n ≠ [] := by
  intro f n h1 h2
  match f, n, h1, h2 with
  | f + 1, n + 1, _, _ => rw [natReprAux]; simp

theorem natRepr_ne_nil (n : Nat) : natRepr n ≠ [] := by
  unfold natRepr; split
  · simp
  · exact natReprAux_ne_nil n n (by omega) (by omega)

theorem natReprAux_zero (f : Nat) : natReprAux f 0 = [] := by
  cases f <;> simp [natReprAux]

theorem digitChar_ne_zero {d : Nat} (h1 : 0 < d) (h2 : d < 10) : digitChar d ≠ '0' := by
  interval_cases d <;> decide

/-- The leading digit of a nonzero number's rendering is not `'0'`. -/
theorem natReprAux_head_ne_zero : ∀ f n, 0 < n → n < 10 ^ f →
    (natReprAux f n).head? ≠ some '0' := by
  intro f
  induction f with
  | zero => intro n h1 h2; omega
  | succ f ih =>
    intro n hpos hlt
    match n, hpos with
    | n + 1, _ =>
      rw [natReprAux]
      by_cases hq : (n + 1) / 10 = 0
      · rw [hq, natReprAux_zero]
        have h10 : n + 1 < 10 := by omega
        have : (n + 1) % 10 = n + 1 := Nat.mod_eq_of_lt h10
        simp only [List.nil_append, List.head?, this]
        intro hc
        exact digitChar_ne_zero (by omega) h10 (by injection hc)
      · have hne2 : natReprAux f ((n + 1) / 10) ≠ [] := by
          cases f with
          | zero =>
            exfalso
            have : (10:Nat) ^ 1 = 10 := by norm_num
            omega
          | succ f2 => exact natReprAux_ne_nil _ _ (by omega) (by omega)
        have hdivlt : (n + 1) / 10 < 10 ^ f := by
          have : (10:Nat) ^ (f + 1) = 10 ^ f * 10 := by ring
          omega
        have := ih ((n + 1) / 10) (by omega) hdivlt
        match hA : natReprAux f ((n + 1) / 10) with
        | [] => exact absurd hA hne2
        | c :: l => rw [hA] at this; simpa using this

theorem natRepr_head_ne_zero {n : Nat} (h : 0 < n) : (natRepr n).head? ≠ some '0' := by
  unfold natRepr
  rw [if_neg (by omega)]
  exact natReprAux_head_ne_zero n n h (lt_ten_pow_self n)

/-- Trimming trailing zeros never crosses a non-`'0'` separator: the part
before the last `'.'` is untouched. -/
theorem dropWhile_append_cons {p : Char → Bool} (xs ys : Str) {y : Char} (h : p y = false) :
    List.dropWhile p (xs ++ y :: ys) = List.dropWhile p xs ++ y :: ys := by
  induction xs with
  | nil => simp [List.dropWhile, h]
  | cons x xs ih =>
    by_cases hx : p x
    · simp [List.dropWhile, hx, ih]
    · simp [List.dropWhile, hx]

theorem trimZeros_append_dot (a b : Str) :
    trimZeros (a ++ '.' :: b) = a ++ '.' :: trimZeros b := by
  unfold trimZeros
  rw [List.reverse_append, List.reverse_cons, List.append_assoc, List.singleton_append]
  rw [dropWhile_append_cons _ _ (by decide)]
  simp

theorem takeWhile_append_of_all {p : Char → Bool} : ∀ {a : Str}, a.all p = true →
    ∀ b : Str, List.takeWhile p (a ++ b) = a ++ List.takeWhile p b := by
  intro a
  induction a with
  | nil => intro _ b; simp
  | cons x xs ih =>
    intro h b
    simp only [List.all_cons, Bool.and_eq_true] at h
    simp [List.takeWhile, h.1, ih h.2]

theorem dropWhile_append_of_all {p : Char → Bool} : ∀ {a : Str}, a.all p = true →
    ∀ b : Str, List.dropWhile p (a ++ b) = List.dropWhile p b := by
  intro a
  induction a with
  | nil => intro _ b; simp
  | cons x xs ih =>
    intro h b
    simp only [List.all_cons, Bool.and_eq_true] at h
    simp [List.dropWhile, h.1, ih h.2]

theorem takeWhile_cons_of_neg {p : Char → Bool} {y : Char} (ys : Str) (h : p y = false) :
    List.takeWhile p (y :: ys) = [] := by
  simp [List.takeWhile, h]

theorem dropWhile_cons_of_neg {p : Char → Bool} {y : Char} (ys : Str) (h : p y = false) :
    List.dropWhile p (y :: ys) = y :: ys := by
  simp [List.dropWhile, h]

theorem not_ws_of_digit {c : Char} (h : isDigitC c = true) : isWsChar c = false := by
  simp only [isDigitC, Bool.and_eq_true, decide_eq_true_eq] at h
  simp only [isWsChar, Bool.or_eq_false_iff, decide_eq_false_iff_not]
  omega

theorem not_dot_of_digit {c : Char} (h : isDigitC c = true) : c ≠ '.' := by
  intro hc
  subst hc
  exact absurd h (by decide)

/-- A digit string of length at most `k` denotes a value below `10 ^ k`. -/
theorem natOfDigits_lt : ∀ l : Str, l.all isDigitC = true → natOfDigits l < 10 ^ l.length := by
  have aux : ∀ l : Str, l.all isDigitC = true → ∀ a : Nat,
      l.foldl (fun x c => x * 10 + digitVal c) a < (a + 1) * 10 ^ l.length := by
    intro l
    induction l with
    | nil => intro _ a; simp
    | cons c cs ih =>
      intro h a
      simp only [List.all_cons, Bool.and_eq_true] at h
      have hd : digitVal c < 10 := by
        simp only [isDigitC, Bool.and_eq_true, decide_eq_true_eq] at h
        unfold digitVal
        omega
      have := ih h.2 (a * 10 + digitVal c)
      calc (c :: cs).foldl (fun x c => x * 10 + digitVal c) a
          = cs.foldl (fun x c => x * 10 + digitVal c) (a * 10 + digitVal c) := by simp
        _ < (a * 10 + digitVal c + 1) * 10 ^ cs.length := this
        _ ≤ (a + 1) * 10 ^ (c :: cs).length := by
            simp only [List.length_cons, pow_succ]
            have : a * 10 + digitVal c + 1 ≤ (a + 1) * 10 := by omega
            calc (a * 10 + digitVal c + 1) * 10 ^ cs.length
                ≤ (a + 1) * 10 * 10 ^ cs.length := Nat.mul_le_mul_right _ this
              _ = (a + 1) * (10 ^ cs.length * 10) := by ring
  intro l h
  have := aux l h 0
  simpa using this

/- ----------------------------------------------------------------
   Claim C3: textual time encoding.
   ---------------------------------------------------------------- -/

/-- C3: for every microsecond count the textual time encoding is
`<seconds>.<6-digit-zero-padded-remainder>` with trailing zeros stripped
from the fractional part only; the decimal point is never stripped, so a
zero microsecond remainder renders as `<seconds>.` with no fractional
digits. -/
theorem c3_time_encoding (t : Nat) :
    encodeTime t =
      natRepr (t / 1000000) ++ '.' :: trimZeros (padLeftZeros 6 (natRepr (t % 1000000)))
    ∧ '.' ∈ encodeTime t
    ∧ (t % 1000000 = 0 → encodeTime t = natRepr (t / 1000000) ++ ['.']) := by
  have h1 : encodeTime t =
      natRepr (t / 1000000) ++ '.' :: trimZeros (padLeftZeros 6 (natRepr (t % 1000000))) := by
    unfold encodeTime format_time
    exact trimZeros_append_dot _ _
  refine ⟨h1, ?_, ?_⟩
  · rw [h1]; simp
  · intro h0
    rw [h1, h0]
    have hz : trimZeros (padLeftZeros 6 (natRepr 0)) = [] := by decide
    rw [hz]

theorem c3_witness : encodeTime 2000000 = natRepr (2000000 / 1000000) ++ ['.'] :=
  (c3_time_encoding 2000000).2.2 rfl

/- ----------------------------------------------------------------
   Data model: event codes, events, decode errors.
   ---------------------------------------------------------------- -/

/-- `EventCode` from the source: the closed set plus `Other(char)`. -/
inductive EventCode where
  | Output
  | Input
  | Resize
  | Marker
  | Other (c : Char)
deriving DecidableEq

/-- Error taxonomy of the reader.  The constructors correspond to the
source's error values: `anyhow!("empty file")`,
`bail!("unsupported asciicast version")`, `Error::custom("invalid time
format")`, `Error::custom("missing event code")`, and any other
serde-json decode / parse-int failure (`decodeErr`). -/
inductive DecErr where
  | emptyFile
  | unsupportedVersion
  | invalidTimeFormat
  | missingEventCode
  | decodeErr
deriving DecidableEq

instance exceptDecEq {ε α : Type} [DecidableEq ε] [DecidableEq α] : DecidableEq (Except ε α)
  | .error a, .error b => if h : a = b then .isTrue (by rw [h]) else .isFalse (by simp [h])
  | .error _, .ok _ => .isFalse (by simp)
  | .ok _, .error _ => .isFalse (by simp)
  | .ok a, .ok b => if h : a = b then .isTrue (by rw [h]) else .isFalse (by simp [h])

/-- The `Display` impl for `EventCode`: one character. -/
def codeText : EventCode → Str
  | .Output => ['o']
  | .Input => ['i']
  | .Resize => ['r']
  | .Marker => ['m']
  | .Other c => [c]

/-- `deserialize_code` from the source: `"o"/"i"/"r"/"m"` map to the closed
set, `""` is the missing-event-code error, and any other string maps to
`Other(first char)`. -/
def deserialize_code (s : Str) : Except DecErr EventCode :=
  if s = ['o'] then .ok .Output
  else if s = ['i'] then .ok .Input
  else if s = ['r'] then .ok .Resize
  else if s = ['m'] then .ok .Marker
  else
    match s with
    | [] => .error .missingEventCode
    | c :: _ => .ok (.Other c)

/-- C8: every single-character event code round-trips: the closed set maps
`o`,`i`,`r`,`m` to `Output`,`Input`,`Resize`,`Marker` and back, and any
other single character round-trips through `Other`. -/
theorem c8_code_roundtrip :
    (∀ c : Char, (deserialize_code [c]).map codeText = .ok [c])
    ∧ deserialize_code ['o'] = .ok .Output
    ∧ deserialize_code ['i'] = .ok .Input
    ∧ deserialize_code ['r'] = .ok .Resize
    ∧ deserialize_code ['m'] = .ok .Marker
    ∧ codeText .Output = ['o'] ∧ codeText .Input = ['i']
    ∧ codeText .Resize = ['r'] ∧ codeText .Marker = ['m']
    ∧ (∀ c : Char, c ∉ (['o', 'i', 'r', 'm'] : List Char) →
        deserialize_code [c] = .ok (.Other c) ∧ codeText (.Other c) = [c]) := by
  refine ⟨?_, by decide, by decide, by decide, by decide, rfl, rfl, rfl, rfl, ?_⟩
  · intro c
    by_cases h1 : c = 'o'
    · subst h1; decide
    by_cases h2 : c = 'i'
    · subst h2; decide
    by_cases h3 : c = 'r'
    · subst h3; decide
    by_cases h4 : c = 'm'
    · subst h4; decide
    simp [deserialize_code, codeText, Except.map, h1, h2, h3, h4]
  · intro c hc
    simp only [List.mem_cons, List.not_mem_nil, or_false, not_or] at hc
    obtain ⟨h1, h2, h3, h4⟩ := hc
    constructor
    · simp [deserialize_code, h1, h2, h3, h4]
    · rfl

theorem c8_witness :
    deserialize_code ['x'] = .ok (.Other 'x') ∧ codeText (.Other 'x') = ['x'] :=
  c8_code_roundtrip.2.2.2.2.2.2.2.2.2 'x' (by decide)

/- ----------------------------------------------------------------
   Time decoding (`deserialize_time`).
   ---------------------------------------------------------------- -/

/-- Rust's `str::split('.')` collected to a vector: the (possibly empty)
parts between the dots. -/
def splitOnDot : Str → List Str
  | [] => [[]]
  | c :: r =>
    if c = '.' then [] :: splitOnDot r
    else
      match splitOnDot r with
      | [] => [[c]]
      | h :: t => (c :: h) :: t

/-- Rust's `str::trim` (the inputs reaching it are ASCII renderings, so
the ASCII whitespace set is exact here). -/
def trimWs (s : Str) : Str :=
  ((s.dropWhile isWsChar).reverse.dropWhile isWsChar).reverse

/-- Rust's `format!("{:0<6}", &right[..(6.min(right.len()))])`: truncate to
at most 6 characters, then right-pad with `'0'` to width 6. -/
def padRight6 (s : Str) : Str :=
  s.take 6 ++ List.replicate (6 - (s.take 6).length) '0'

/-- `deserialize_time` from the source, acting on the
`value.as_f64().map(|v| v.to_string()).unwrap_or_default()` rendering:
split on `'.'`; exactly two parts are required (otherwise the
invalid-time-format error); the left part parses as `u64` seconds, the
right part is trimmed, truncated/padded to 6 digits and parsed as the
microsecond remainder; the result is `secs * 1_000_000 + micros` with
`u64` wrap-around. -/
def deserialize_time_s (s : Str) : Except DecErr Nat :=
  match splitOnDot s with
  | [left, right] =>
    match parseU64 left with
    | none => .error .decodeErr
    | some secs =>
      match parseU64 (padRight6 (trimWs right)) with
      | none => .error .decodeErr
      | some micros => .ok ((secs * 1000000 + micros) % U64MOD)
  | _ => .error .invalidTimeFormat

theorem splitOnDot_no_dot : ∀ s : Str, '.' ∉ s → splitOnDot s = [s] := by
  intro s
  induction s with
  | nil => intro _; rfl
  | cons c r ih =>
    intro h
    simp only [List.mem_cons, not_or] at h
    rw [splitOnDot, if_neg (fun hc => h.1 hc.symm)]
    rw [ih h.2]

theorem splitOnDot_append_dot (ds fs : Str) (h1 : '.' ∉ ds) (h2 : '.' ∉ fs) :
    splitOnDot (ds ++ '.' :: fs) = [ds, fs] := by
  induction ds with
  | nil =>
    rw [List.nil_append, splitOnDot, if_pos rfl, splitOnDot_no_dot fs h2]
  | cons c r ih =>
    simp only [List.mem_cons, not_or] at h1
    rw [List.cons_append, splitOnDot, if_neg (fun hc => h1.1 hc.symm)]
    rw [ih h1.2]

theorem not_mem_dot_of_all_digits {s : Str} (h : s.all isDigitC = true) : '.' ∉ s := by
  intro hmem
  rw [List.all_eq_true] at h
  exact not_dot_of_digit (h _ hmem) rfl

theorem dropWhile_ws_of_all_digits {s : Str} (h : s.all isDigitC = true) :
    s.dropWhile isWsChar = s := by
  cases s with
  | nil => rfl
  | cons c r =>
    simp only [List.all_cons, Bool.and_eq_true] at h
    exact dropWhile_cons_of_neg r (not_ws_of_digit h.1)

theorem trimWs_of_all_digits {s : Str} (h : s.all isDigitC = true) : trimWs s = s := by
  unfold trimWs
  rw [dropWhile_ws_of_all_digits h]
  rw [dropWhile_ws_of_all_digits (by rw [List.all_reverse]; exact h)]
  exact List.reverse_reverse s

theorem head_not_plus_of_digit {c : Char} (h : isDigitC c = true) : c ≠ '+' := by
  intro hc
  subst hc
  exact absurd h (by decide)

theorem parseU64_digits {s : Str} (hne : s ≠ []) (hdig : s.all isDigitC = true)
    (hlt : natOfDigits s < U64MOD) : parseU64 s = some (natOfDigits s) := by
  unfold parseU64
  have hplus : s.head? ≠ some '+' := by
    cases s with
    | nil => simp
    | cons c r =>
      simp only [List.all_cons, Bool.and_eq_true] at hdig
      intro hc
      exact head_not_plus_of_digit hdig.1 (Option.some.inj hc)
  rw [if_neg hplus]
  simp only [List.isEmpty_iff]
  rw [if_neg hne, if_pos hdig, if_pos hlt]

theorem padRight6_all_digits {s : Str} (h : s.all isDigitC = true) :
    (padRight6 s).all isDigitC = true := by
  unfold padRight6
  rw [List.all_append, Bool.and_eq_true]
  constructor
  · rw [List.all_eq_true] at h ⊢
    intro c hc
    exact h c (List.take_subset 6 s hc)
  · rw [List.all_eq_true]
    intro c hc
    rw [List.eq_of_mem_replicate hc]
    decide

theorem padRight6_length (s : Str) : (padRight6 s).length = 6 := by
  unfold padRight6
  rw [List.length_append, List.length_replicate]
  have : (s.take 6).length ≤ 6 := by
    rw [List.length_take]
    omega
  omega

theorem padRight6_ne_nil (s : Str) : padRight6 s ≠ [] := by
  intro h
  have := padRight6_length s
  rw [h] at this
  simp at this

/- ----------------------------------------------------------------
   The f64 rendering model (`value.as_f64().map(|v| v.to_string())`).
   ---------------------------------------------------------------- -/

/-- Decomposed JSON number token: sign, integer digits, fraction digits,
exponent. -/
structure NumTok where
  neg : Bool
  int : Str
  frac : Str
  exp : Int
deriving DecidableEq

/-- The exponent part of a number token (input is what remains after the
integer and fraction). -/
def parseNumTokExp (neg : Bool) (ip fp : Str) : Str → Option NumTok
  | [] => some ⟨neg, ip, fp, 0⟩
  | e :: r3 =>
    if e = 'e' ∨ e = 'E' then
      if ((if r3.head? = some '-' ∨ r3.head? = some '+' then r3.tail else r3).takeWhile
            isDigitC).isEmpty
        ∨ ¬((if r3.head? = some '-' ∨ r3.head? = some '+' then r3.tail
            else r3).dropWhile isDigitC).isEmpty then none
      else
        some ⟨neg, ip, fp,
          if r3.head? = some '-' then
            -(natOfDigits ((if r3.head? = some '-' ∨ r3.head? = some '+' then r3.tail
              else r3).takeWhile isDigitC) : Int)
          else
            (natOfDigits ((if r3.head? = some '-' ∨ r3.head? = some '+' then r3.tail
              else r3).takeWhile isDigitC) : Int)⟩
    else none

/-- The optional fraction of a number token (input is what remains after
the integer part). -/
def parseNumTokFrac (neg : Bool) (ip : Str) (r1 : Str) : Option NumTok :=
  if r1.head? = some '.' then
    if (r1.tail.takeWhile isDigitC).isEmpty then none
    else parseNumTokExp neg ip (r1.tail.takeWhile isDigitC) (r1.tail.dropWhile isDigitC)
  else parseNumTokExp neg ip [] r1

/-- Decompose a JSON number token into sign, integer part, fractional part
and exponent. -/
def parseNumTok (s : Str) : Option NumTok :=
  if (((if s.head? = some '-' then s.tail else s) : Str).takeWhile isDigitC).isEmpty then none
  else
    parseNumTokFrac (decide (s.head? = some '-'))
      (((if s.head? = some '-' then s.tail else s) : Str).takeWhile isDigitC)
      (((if s.head? = some '-' then s.tail else s) : Str).dropWhile isDigitC)

def zerosL (k : Nat) : Str := List.replicate k '0'

/-- Place the decimal point of a digit string `D` (no leading zeros) whose
value is `D × 10 ^ (e10 - |D|)`: `e10` is the number of digits before the
point.  Trailing fractional zeros are dropped, and so is a fraction that
becomes empty. -/
def renderBody (D : Str) (e10 : Int) : Str :=
  if e10 ≤ 0 then '0' :: '.' :: (zerosL (-e10).toNat ++ trimZeros D)
  else if e10 < (D.length : Int) then
    if (trimZeros (D.drop e10.toNat)).isEmpty then D.take e10.toNat
    else D.take e10.toNat ++ '.' :: trimZeros (D.drop e10.toNat)
  else D ++ zerosL (e10 - (D.length : Int)).toNat

/-- Model of Rust's `f64::to_string` applied to the `f64` obtained from a
JSON number token (`Value::as_f64`): the exact-decimal normalization of
the token — plain decimal output (Rust's `Display` never uses exponent
notation), no leading zeros, fractional part present only when nonzero and
carrying no trailing zeros.  This agrees with the real
parse-then-shortest-render pipeline on every token whose decimal value has
at most 15 significant digits; beyond `f64` precision the real pipeline
rounds while this model stays exact, so every theorem that feeds it a
token keeps that token inside the 15-significant-digit range (the
round-trip theorem bounds decoded event times by `10^15` microseconds for
exactly this reason). -/
def f64Render (s : Str) : Str :=
  match parseNumTok s with
  | none => ['0']
  | some n =>
    let D := (n.int ++ n.frac).dropWhile (fun c => c = '0')
    if D.isEmpty then (if n.neg then ['-', '0'] else ['0'])
    else
      let body := renderBody D ((D.length : Int) + n.exp - (n.frac.length : Int))
      if n.neg then '-' :: body else body

/-- C2 counterexample: the JSON numeric value `-1.5` renders (via
`as_f64().to_string()`) as `-1.5`, which contains a decimal point, yet
decoding fails with a `u64` parse error rather than yielding
`seconds * 1_000_000 + fractional remainder` as the claim states for
every rendering containing a decimal point. -/
theorem c2_counterexample :
    f64Render ['-', '1', '.', '5'] = ['-', '1', '.', '5']
    ∧ '.' ∈ (['-', '1', '.', '5'] : Str)
    ∧ deserialize_time_s ['-', '1', '.', '5'] = .error .decodeErr := by
  refine ⟨by decide, by decide, by decide⟩

theorem deserialize_time_s_digits {ds fs : Str} (hne : ds ≠ []) (hdig : ds.all isDigitC = true)
    (_hfne : fs ≠ []) (hfdig : fs.all isDigitC = true) (hsec : natOfDigits ds < U64MOD)
    (hfit : natOfDigits ds * 1000000 + natOfDigits (padRight6 fs) < U64MOD) :
    deserialize_time_s (ds ++ '.' :: fs) =
      .ok (natOfDigits ds * 1000000 + natOfDigits (padRight6 fs)) := by
  have hbound : natOfDigits (padRight6 fs) < U64MOD := by
    have h1 := natOfDigits_lt (padRight6 fs) (padRight6_all_digits hfdig)
    rw [padRight6_length] at h1
    calc natOfDigits (padRight6 fs) < 10 ^ 6 := h1
      _ < U64MOD := by norm_num [U64MOD]
  unfold deserialize_time_s
  rw [splitOnDot_append_dot ds fs (not_mem_dot_of_all_digits hdig)
    (not_mem_dot_of_all_digits hfdig)]
  show (match parseU64 ds with
    | none => Except.error DecErr.decodeErr
    | some secs =>
      match parseU64 (padRight6 (trimWs fs)) with
      | none => Except.error DecErr.decodeErr
      | some micros => Except.ok ((secs * 1000000 + micros) % U64MOD)) = _
  rw [parseU64_digits hne hdig hsec]
  rw [trimWs_of_all_digits hfdig]
  rw [parseU64_digits (padRight6_ne_nil fs) (padRight6_all_digits hfdig) hbound]
  simp [Nat.mod_eq_of_lt hfit]

theorem deserialize_time_s_no_dot {s : Str} (hdot : '.' ∉ s) :
    deserialize_time_s s = .error .invalidTimeFormat := by
  unfold deserialize_time_s
  rw [splitOnDot_no_dot s hdot]

/-- C2 (amended): for every rendering made of a nonempty digit string, a
decimal point and a nonempty digit string — negative values excluded, and
the `u64`-range side conditions made explicit — decoding yields the
integer part times 1,000,000 plus the fractional digits truncated to 6
and right-padded with zeros; and every rendering with no decimal point
fails with the invalid-time-format error. -/
theorem c2_time_decode :
    (∀ ds fs : Str, ds ≠ [] → ds.all isDigitC = true → fs ≠ [] → fs.all isDigitC = true →
      natOfDigits ds < U64MOD →
      natOfDigits ds * 1000000 + natOfDigits (padRight6 fs) < U64MOD →
      deserialize_time_s (ds ++ '.' :: fs) =
        .ok (natOfDigits ds * 1000000 + natOfDigits (padRight6 fs)))
    ∧ (∀ s : Str, '.' ∉ s → deserialize_time_s s = .error .invalidTimeFormat) :=
  ⟨fun _ _ hne hdig hfne hfdig hsec hfit =>
      deserialize_time_s_digits hne hdig hfne hfdig hsec hfit,
    fun _ hdot => deserialize_time_s_no_dot hdot⟩

theorem c2_witness :
    deserialize_time_s ['1', '.', '5'] =
      .ok (natOfDigits ['1'] * 1000000 + natOfDigits (padRight6 ['5'])) :=
  c2_time_decode.1 ['1'] ['5'] (by decide) (by decide) (by decide) (by decide)
    (by decide) (by decide)

/- ----------------------------------------------------------------
   Events and the idle-time limiting transform.
   ---------------------------------------------------------------- -/

/-- `Event` from the source: absolute time in microseconds (`u64`), code,
and UTF-8 text data. -/
structure Event where
  time : Nat
  code : EventCode
  data : Str
deriving DecidableEq

/-- The loop body of `limit_idle_time`: the iterator adapter keeps
`prev_time` and `offset` across items; `Result::map` passes error items
through without touching the state.  `u64` subtraction appears only where
the non-decreasing-time precondition keeps it from underflowing. -/
def litGo (limit : Nat) (prev off : Nat) :
    List (Except DecErr Event) → List (Except DecErr Event)
  | [] => []
  | .error e :: rest => .error e :: litGo limit prev off rest
  | .ok ev :: rest =>
    let delay := ev.time - prev
    let off2 := if limit < delay then off + (delay - limit) else off
    .ok { ev with time := ev.time - off2 } :: litGo limit ev.time off2 rest

/-- `limit_idle_time` from the source, taking the limit already converted
to microseconds (the source computes `(limit * 1_000_000.0) as u64` from
the `f64` seconds value; for the limit 2.0 exercised below that conversion
is exact and yields 2,000,000). -/
def limit_idle_time (limit : Nat) (events : List (Except DecErr Event)) :
    List (Except DecErr Event) :=
  litGo limit 0 0 events

/-- The recurrence exactly as the claim states it, in exact integer
arithmetic: `gap = t - prev_time`; when `gap > limit` add `gap - limit` to
the accumulated offset; set `prev_time = t`; emit the event at
`t - accumulated_offset`. -/
def litSpecGo (limit : Int) (prev off : Int) : List Event → List Event
  | [] => []
  | ev :: rest =>
    let gap : Int := (ev.time : Int) - prev
    let off2 := if limit < gap then off + (gap - limit) else off
    { ev with time := ((ev.time : Int) - off2).toNat } ::
      litSpecGo limit (ev.time : Int) off2 rest

def limitIdleSpec (limit : Int) (es : List Event) : List Event :=
  litSpecGo limit 0 0 es

theorem litGo_eq_spec (L : Nat) : ∀ (es : List Event) (prev off : Nat),
    off ≤ prev → (∀ first, es.head? = some first → prev ≤ first.time) →
    List.Chain' (fun a b => a.time ≤ b.time) es →
    litGo L prev off (es.map .ok) =
      (litSpecGo (L : Int) (prev : Int) (off : Int) es).map .ok := by
  intro es
  induction es with
  | nil => intro prev off _ _ _; simp [litGo, litSpecGo]
  | cons ev rest ih =>
    intro prev off hop hhead hchain
    have hprev : prev ≤ ev.time := hhead ev rfl
    simp only [List.map_cons, litGo, litSpecGo]
    have hgap : ((ev.time : Int) - (prev : Int)) = ((ev.time - prev : Nat) : Int) := by
      omega
    have hcond : ((L : Int) < (ev.time : Int) - (prev : Int)) ↔ (L < ev.time - prev) := by
      omega
    by_cases hc : L < ev.time - prev
    · have hoff2 : off + (ev.time - prev - L) ≤ ev.time := by omega
      have htime : ((ev.time : Int) - ((off : Int) + ((ev.time : Int) - prev - L))).toNat
          = ev.time - (off + (ev.time - prev - L)) := by omega
      rw [if_pos hc, if_pos (by omega : (L : Int) < (ev.time : Int) - (prev : Int))]
      have hrec := ih ev.time (off + (ev.time - prev - L)) hoff2
        (fun f hf => ?_) hchain.tail
      · have hcast : ((off + (ev.time - prev - L) : Nat) : Int)
            = (off : Int) + ((ev.time : Int) - (prev : Int) - (L : Int)) := by omega
        rw [htime, ← hcast, hrec]
      · cases rest with
        | nil => simp at hf
        | cons b l =>
          have := (List.chain'_cons.mp hchain).1
          simp only [List.head?, Option.some.injEq] at hf
          subst hf
          exact this
    · have htime : ((ev.time : Int) - (off : Int)).toNat = ev.time - off := by omega
      rw [if_neg hc, if_neg (by omega : ¬ (L : Int) < (ev.time : Int) - (prev : Int))]
      have hrec := ih ev.time off (by omega)
        (fun f hf => ?_) hchain.tail
      · rw [htime, hrec]
      · cases rest with
        | nil => simp at hf
        | cons b l =>
          have := (List.chain'_cons.mp hchain).1
          simp only [List.head?, Option.some.injEq] at hf
          subst hf
          exact this

/-- A plain output event, used in the concrete test vectors. -/
def outEv (t : Nat) : Event := ⟨t, .Output, []⟩

/-- C5: `limit_idle_time` implements exactly the claimed recurrence
(`prev_time` and `accumulated_offset` both starting at 0, offset growing
by `gap - limit` whenever `gap` exceeds the limit, events emitted at
`t - accumulated_offset`), and on the concrete vector with limit 2.0s
(2,000,000 microseconds) the times `[0, 1000000, 3500000, 4000000,
7500000]` map to `[0, 1000000, 3000000, 3500000, 5500000]`. -/
theorem c5_limit_idle_time :
    (∀ (limit : Nat) (es : List Event),
      List.Chain' (fun a b => a.time ≤ b.time) es →
      limit_idle_time limit (es.map .ok) = (limitIdleSpec (limit : Int) es).map .ok)
    ∧ limit_idle_time 2000000
        (([outEv 0, outEv 1000000, outEv 3500000, outEv 4000000, outEv 7500000]).map .ok)
      = ([outEv 0, outEv 1000000, outEv 3000000, outEv 3500000, outEv 5500000]).map .ok := by
  constructor
  · intro limit es hchain
    unfold limit_idle_time limitIdleSpec
    exact_mod_cast litGo_eq_spec limit es 0 0 (by omega) (fun f _ => by omega) hchain
  · decide

theorem c5_witness :
    limit_idle_time 5 (([outEv 0, outEv 10]).map .ok)
      = (limitIdleSpec (5 : Int) [outEv 0, outEv 10]).map .ok :=
  c5_limit_idle_time.1 5 [outEv 0, outEv 10]
    (List.chain'_cons.mpr ⟨by decide, List.chain'_singleton _⟩)

/- ----------------------------------------------------------------
   JSON string escaping (serde_json `to_string` for strings) and the
   matching string-body parser.
   ---------------------------------------------------------------- -/

def hexChar (d : Nat) : Char := if d < 10 then digitChar d else Char.ofNat (87 + d)

def hexVal (c : Char) : Option Nat :=
  if 48 ≤ c.toNat ∧ c.toNat ≤ 57 then some (c.toNat - 48)
  else if 97 ≤ c.toNat ∧ c.toNat ≤ 102 then some (c.toNat - 87)
  else if 65 ≤ c.toNat ∧ c.toNat ≤ 70 then some (c.toNat - 55)
  else none

/-- serde_json's escaping of one character inside a JSON string: quote and
backslash get a backslash escape, the five named control characters use
their short escapes, the remaining control characters use `\u00xx`, and
everything else is emitted as-is. -/
def escapeChar (c : Char) : Str :=
  if c = '"' then ['\\', '"']
  else if c = '\\' then ['\\', '\\']
  else if c.toNat = 8 then ['\\', 'b']
  else if c.toNat = 9 then ['\\', 't']
  else if c.toNat = 10 then ['\\', 'n']
  else if c.toNat = 12 then ['\\', 'f']
  else if c.toNat = 13 then ['\\', 'r']
  else if c.toNat < 32 then
    ['\\', 'u', '0', '0', hexChar (c.toNat / 16), hexChar (c.toNat % 16)]
  else [c]

def escapeStr : Str → Str
  | [] => []
  | c :: cs => escapeChar c ++ escapeStr cs

/-- serde_json's serialization of a string value. -/
def printStrJ (s : Str) : Str := '"' :: escapeStr s ++ ['"']

def mkChar (n : Nat) : Option Char :=
  if n.isValidChar then some (Char.ofNat n) else none

/-- Decode a `\uXXXX` escape (input starts right after the `u`): four hex
digits; a high surrogate must be followed by a second `\uXXXX` escape
holding a low surrogate, and lone surrogates are rejected.  Returns the
decoded character and the remaining input. -/
def parseUEsc (s : Str) : Option (Char × Str) :=
  match s with
  | h1 :: h2 :: h3 :: h4 :: rest3 =>
    match hexVal h1, hexVal h2, hexVal h3, hexVal h4 with
    | some a, some b, some c2, some d =>
      let v := ((a * 16 + b) * 16 + c2) * 16 + d
      if 0xD800 ≤ v ∧ v ≤ 0xDBFF then
        match rest3 with
        | '\\' :: 'u' :: g1 :: g2 :: g3 :: g4 :: rest4 =>
          match hexVal g1, hexVal g2, hexVal g3, hexVal g4 with
          | some a2, some b2, some c3, some d2 =>
            let w := ((a2 * 16 + b2) * 16 + c3) * 16 + d2
            if 0xDC00 ≤ w ∧ w ≤ 0xDFFF then
              match mkChar (0x10000 + (v - 0xD800) * 0x400 + (w - 0xDC00)) with
              | some ch => some (ch, rest4)
              | none => none
            else none
          | _, _, _, _ => none
        | _ => none
      else if 0xDC00 ≤ v ∧ v ≤ 0xDFFF then none
      else
        match mkChar v with
        | some ch => some (ch, rest3)
        | none => none
    | _, _, _, _ => none
  | _ => none

/-- The JSON string-body parser (everything after the opening quote), per
the JSON grammar as serde_json implements it: raw characters must be at
least `0x20`; escapes cover the named ones plus `\uXXXX`.  The first
argument is fuel; each recursive step consumes at least one input
character, so fuel exceeding the input length gives the parser's total
behaviour. -/
def parseStringBody : Nat → Str → Option (Str × Str)
  | 0, _ => none
  | _ + 1, [] => none
  | f + 1, c :: rest =>
    if c = '"' then some ([], rest)
    else if c = '\\' then
      match rest with
      | [] => none
      | e :: rest2 =>
        if e = '"' ∨ e = '\\' ∨ e = '/' then
          (parseStringBody f rest2).map (fun p => (e :: p.1, p.2))
        else if e = 'b' then
          (parseStringBody f rest2).map (fun p => (Char.ofNat 8 :: p.1, p.2))
        else if e = 'f' then
          (parseStringBody f rest2).map (fun p => (Char.ofNat 12 :: p.1, p.2))
        else if e = 'n' then
          (parseStringBody f rest2).map (fun p => (Char.ofNat 10 :: p.1, p.2))
        else if e = 'r' then
          (parseStringBody f rest2).map (fun p => (Char.ofNat 13 :: p.1, p.2))
        else if e = 't' then
          (parseStringBody f rest2).map (fun p => (Char.ofNat 9 :: p.1, p.2))
        else if e = 'u' then
          match parseUEsc rest2 with
          | some (ch, rest3) => (parseStringBody f rest3).map (fun p => (ch :: p.1, p.2))
          | none => none
        else none
    else if c.toNat < 32 then none
    else (parseStringBody f rest).map (fun p => (c :: p.1, p.2))

theorem hexVal_hexChar {d : Nat} (h : d < 16) : hexVal (hexChar d) = some d := by
  interval_cases d <;> decide

theorem mkChar_toNat (c : Char) : mkChar c.toNat = some c := by
  unfold mkChar
  rw [if_pos (show c.toNat.isValidChar from c.valid)]
  rw [Char.ofNat_toNat]

theorem psb_quote (f : Nat) (r : Str) : parseStringBody (f + 1) ('"' :: r) = some ([], r) := rfl

theorem psb_esc_quote (f : Nat) (r : Str) : parseStringBody (f + 1) ('\\' :: '"' :: r)
    = (parseStringBody f r).map (fun p => ('"' :: p.1, p.2)) := rfl

theorem psb_esc_back (f : Nat) (r : Str) : parseStringBody (f + 1) ('\\' :: '\\' :: r)
    = (parseStringBody f r).map (fun p => ('\\' :: p.1, p.2)) := rfl

theorem psb_esc_b (f : Nat) (r : Str) : parseStringBody (f + 1) ('\\' :: 'b' :: r)
    = (parseStringBody f r).map (fun p => (Char.ofNat 8 :: p.1, p.2)) := rfl

theorem psb_esc_t (f : Nat) (r : Str) : parseStringBody (f + 1) ('\\' :: 't' :: r)
    = (parseStringBody f r).map (fun p => (Char.ofNat 9 :: p.1, p.2)) := rfl

theorem psb_esc_n (f : Nat) (r : Str) : parseStringBody (f + 1) ('\\' :: 'n' :: r)
    = (parseStringBody f r).map (fun p => (Char.ofNat 10 :: p.1, p.2)) := rfl

theorem psb_esc_f (f : Nat) (r : Str) : parseStringBody (f + 1) ('\\' :: 'f' :: r)
    = (parseStringBody f r).map (fun p => (Char.ofNat 12 :: p.1, p.2)) := rfl

theorem psb_esc_r (f : Nat) (r : Str) : parseStringBody (f + 1) ('\\' :: 'r' :: r)
    = (parseStringBody f r).map (fun p => (Char.ofNat 13 :: p.1, p.2)) := rfl

theorem parseUEsc_low {v : Nat} (hv : v < 32) (r : Str) :
    parseUEsc ('0' :: '0' :: hexChar (v / 16) :: hexChar (v % 16) :: r)
      = some (Char.ofNat v, r) := by
  have h1 : hexVal '0' = some 0 := by decide
  have h2 : hexVal (hexChar (v / 16)) = some (v / 16) := hexVal_hexChar (by omega)
  have h3 : hexVal (hexChar (v % 16)) = some (v % 16) := hexVal_hexChar (by omega)
  simp only [parseUEsc]
  rw [h1, h2, h3]
  show (if 0xD800 ≤ ((0 * 16 + 0) * 16 + v / 16) * 16 + v % 16 ∧ _ then _
    else if 0xDC00 ≤ ((0 * 16 + 0) * 16 + v / 16) * 16 + v % 16 ∧ _ then _ else _) = _
  have hv2 : ((0 * 16 + 0) * 16 + v / 16) * 16 + v % 16 = v := by omega
  rw [if_neg (by omega), if_neg (by omega)]
  have hvalid : v.isValidChar := Or.inl (by omega)
  rw [hv2]
  unfold mkChar
  rw [if_pos hvalid]

theorem psb_esc_u (f : Nat) (rest2 : Str) :
    parseStringBody (f + 1) ('\\' :: 'u' :: rest2)
      = match parseUEsc rest2 with
        | some (ch, rest3) => (parseStringBody f rest3).map (fun p => (ch :: p.1, p.2))
        | none => none := rfl

theorem psb_esc_u00 {v : Nat} (hv : v < 32) (f : Nat) (r : Str) :
    parseStringBody (f + 1)
        ('\\' :: 'u' :: '0' :: '0' :: hexChar (v / 16) :: hexChar (v % 16) :: r)
      = (parseStringBody f r).map (fun p => (Char.ofNat v :: p.1, p.2)) := by
  rw [psb_esc_u, parseUEsc_low hv]

theorem psb_raw {c : Char} (h1 : ¬c = '"') (h2 : ¬c = '\\') (h3 : ¬c.toNat < 32)
    (f : Nat) (r : Str) :
    parseStringBody (f + 1) (c :: r) = (parseStringBody f r).map (fun p => (c :: p.1, p.2)) := by
  cases r with
  | nil =>
    rw [parseStringBody]
    rw [if_neg h1, if_neg h2, if_neg h3]
  | cons e rest2 =>
    rw [parseStringBody]
    rw [if_neg h1, if_neg h2, if_neg h3]

theorem escapeChar_ne_nil (c : Char) : 1 ≤ (escapeChar c).length := by
  unfold escapeChar
  split_ifs <;> simp

/-- Escaping then parsing a string body gives back the string and the
rest of the input (for any fuel exceeding the input length). -/
theorem parseStringBody_escape : ∀ (s : Str) (f : Nat) (rest : Str),
    (escapeStr s ++ '"' :: rest).length < f →
    parseStringBody f (escapeStr s ++ '"' :: rest) = some (s, rest) := by
  intro s
  induction s with
  | nil =>
    intro f rest hf
    match f, hf with
    | f + 1, _ => exact psb_quote f rest
  | cons c cs ih =>
    intro f rest hf
    have hlen : (escapeStr cs ++ '"' :: rest).length < f - 1 := by
      have h1 := escapeChar_ne_nil c
      have : (escapeStr (c :: cs) ++ '"' :: rest).length
          = (escapeChar c).length + (escapeStr cs ++ '"' :: rest).length := by
        show ((escapeChar c ++ escapeStr cs) ++ '"' :: rest).length = _
        rw [List.append_assoc, List.length_append]
      omega
    have hfpos : 1 ≤ f := by
      have : 0 < (escapeStr (c :: cs) ++ '"' :: rest).length := by simp
      omega
    obtain ⟨f', rfl⟩ : ∃ f', f = f' + 1 := ⟨f - 1, by omega⟩
    have hlen' : (escapeStr cs ++ '"' :: rest).length < f' := by omega
    have ihr := ih f' rest (by omega)
    show parseStringBody (f' + 1) (escapeChar c ++ escapeStr cs ++ '"' :: rest) = _
    unfold escapeChar
    by_cases h1 : c = '"'
    · subst h1
      rw [if_pos rfl]
      show parseStringBody (f' + 1) ('\\' :: '"' :: (escapeStr cs ++ '"' :: rest)) = _
      rw [psb_esc_quote, ihr]
      rfl
    · rw [if_neg h1]
      by_cases h2 : c = '\\'
      · subst h2
        rw [if_pos rfl]
        show parseStringBody (f' + 1) ('\\' :: '\\' :: (escapeStr cs ++ '"' :: rest)) = _
        rw [psb_esc_back, ihr]
        rfl
      · rw [if_neg h2]
        by_cases h3 : c.toNat = 8
        · rw [if_pos h3]
          show parseStringBody (f' + 1) ('\\' :: 'b' :: (escapeStr cs ++ '"' :: rest)) = _
          rw [psb_esc_b, ihr, ← h3, Char.ofNat_toNat]
          rfl
        · rw [if_neg h3]
          by_cases h4 : c.toNat = 9
          · rw [if_pos h4]
            show parseStringBody (f' + 1) ('\\' :: 't' :: (escapeStr cs ++ '"' :: rest)) = _
            rw [psb_esc_t, ihr, ← h4, Char.ofNat_toNat]
            rfl
          · rw [if_neg h4]
            by_cases h5 : c.toNat = 10
            · rw [if_pos h5]
              show parseStringBody (f' + 1) ('\\' :: 'n' :: (escapeStr cs ++ '"' :: rest)) = _
              rw [psb_esc_n, ihr, ← h5, Char.ofNat_toNat]
              rfl
            · rw [if_neg h5]
              by_cases h6 : c.toNat = 12
              · rw [if_pos h6]
                show parseStringBody (f' + 1) ('\\' :: 'f' :: (escapeStr cs ++ '"' :: rest)) = _
                rw [psb_esc_f, ihr, ← h6, Char.ofNat_toNat]
                rfl
              · rw [if_neg h6]
                by_cases h7 : c.toNat = 13
                · rw [if_pos h7]
                  show parseStringBody (f' + 1) ('\\' :: 'r' :: (escapeStr cs ++ '"' :: rest)) = _
                  rw [psb_esc_r, ihr, ← h7, Char.ofNat_toNat]
                  rfl
                · rw [if_neg h7]
                  by_cases h8 : c.toNat < 32
                  · rw [if_pos h8]
                    show parseStringBody (f' + 1) ('\\' :: 'u' :: '0' :: '0' ::
                      hexChar (c.toNat / 16) :: hexChar (c.toNat % 16) ::
                      (escapeStr cs ++ '"' :: rest)) = _
                    rw [psb_esc_u00 h8, ihr, Char.ofNat_toNat]
                    rfl
                  · rw [if_neg h8]
                    show parseStringBody (f' + 1) (c :: (escapeStr cs ++ '"' :: rest)) = _
                    rw [psb_raw h1 h2 h8, ihr]
                    rfl

/- ----------------------------------------------------------------
   JSON values and the serde_json text parser.
   ---------------------------------------------------------------- -/

/-- JSON values; numbers are carried as their textual token. -/
inductive Json where
  | null
  | bool (b : Bool)
  | num (tok : Str)
  | str (s : Str)
  | arr (elems : List Json)
  | obj (members : List (Str × Json))

def skipWs (s : Str) : Str := s.dropWhile isWsChar

/-- Lex the integer part of a JSON number: `0` or a nonzero digit followed
by digits (JSON forbids leading zeros). -/
def lexInt : Str → Option (Str × Str)
  | [] => none
  | c :: r =>
    if c = '0' then some (['0'], r)
    else if isDigitC c then some (c :: r.takeWhile isDigitC, r.dropWhile isDigitC)
    else none

/-- Lex the optional fraction: a dot must be followed by at least one
digit. -/
def lexFrac (s : Str) : Option (Str × Str) :=
  if s.head? = some '.' then
    let ds := s.tail.takeWhile isDigitC
    if ds.isEmpty then none else some ('.' :: ds, s.tail.dropWhile isDigitC)
  else some ([], s)

/-- Lex the optional exponent. -/
def lexExp : Str → Option (Str × Str)
  | [] => some ([], [])
  | c :: r =>
    if c = 'e' ∨ c = 'E' then
      match r with
      | [] => none
      | sgn :: r2 =>
        if sgn = '+' ∨ sgn = '-' then
          let ds := r2.takeWhile isDigitC
          if ds.isEmpty then none else some (c :: sgn :: ds, r2.dropWhile isDigitC)
        else
          let ds := r.takeWhile isDigitC
          if ds.isEmpty then none else some (c :: ds, r.dropWhile isDigitC)
    else some ([], c :: r)

def lexNumberBody (s : Str) : Option (Str × Str) := do
  let (ip, r1) ← lexInt s
  let (fp, r2) ← lexFrac r1
  let (ep, r3) ← lexExp r2
  pure (ip ++ fp ++ ep, r3)

/-- Lex a JSON number token (with optional leading minus). -/
def lexNumber (s : Str) : Option (Str × Str) :=
  if s.head? = some '-' then
    (lexNumberBody s.tail).map (fun p => ('-' :: p.1, p.2))
  else lexNumberBody s

mutual

/-- The JSON value parser (serde_json's grammar), fueled: keywords,
strings, numbers, arrays and objects.  Fuel `2 * input length + 4` is
always sufficient. -/
def parseValue : Nat → Str → Option (Json × Str)
  | 0, _ => none
  | f + 1, input =>
    match skipWs input with
    | [] => none
    | c :: r =>
      if c = 'n' then if r.take 3 = ['u', 'l', 'l'] then some (.null, r.drop 3) else none
      else if c = 't' then if r.take 3 = ['r', 'u', 'e'] then some (.bool true, r.drop 3) else none
      else if c = 'f' then
        if r.take 4 = ['a', 'l', 's', 'e'] then some (.bool false, r.drop 4) else none
      else if c = '"' then (parseStringBody (r.length + 1) r).map (fun p => (.str p.1, p.2))
      else if c = '[' then (parseElemsFirst f (skipWs r)).map (fun p => (.arr p.1, p.2))
      else if c = '{' then (parseMembersFirst f (skipWs r)).map (fun p => (.obj p.1, p.2))
      else (lexNumber (c :: r)).map (fun p => (.num p.1, p.2))

/-- Parse the contents of an array right after `[` (whitespace already
skipped): either `]` or the first element followed by the rest. -/
def parseElemsFirst : Nat → Str → Option (List Json × Str)
  | 0, _ => none
  | f + 1, input =>
    if input.head? = some ']' then some ([], input.tail)
    else
      match parseValue f input with
      | none => none
      | some (v, r1) =>
        match parseElemsRest f r1 with
        | none => none
        | some (vs, r2) => some (v :: vs, r2)

/-- Parse `, element`* `]` after an element. -/
def parseElemsRest : Nat → Str → Option (List Json × Str)
  | 0, _ => none
  | f + 1, input =>
    match skipWs input with
    | ']' :: r => some ([], r)
    | ',' :: r =>
      match parseValue f r with
      | none => none
      | some (v, r1) =>
        match parseElemsRest f r1 with
        | none => none
        | some (vs, r2) => some (v :: vs, r2)
    | _ => none

/-- Parse one `"key": value` member. -/
def parseMember : Nat → Str → Option ((Str × Json) × Str)
  | 0, _ => none
  | f + 1, input =>
    match skipWs input with
    | '"' :: r =>
      match parseStringBody (r.length + 1) r with
      | none => none
      | some (k, r1) =>
        match skipWs r1 with
        | ':' :: r2 =>
          match parseValue f r2 with
          | some (v, r3) => some ((k, v), r3)
          | none => none
        | _ => none
    | _ => none

/-- Parse the contents of an object right after `{` (whitespace already
skipped). -/
def parseMembersFirst : Nat → Str → Option (List (Str × Json) × Str)
  | 0, _ => none
  | f + 1, input =>
    if input.head? = some '}' then some ([], input.tail)
    else
      match parseMember f input with
      | none => none
      | some (m, r1) =>
        match parseMembersRest f r1 with
        | none => none
        | some (ms, r2) => some (m :: ms, r2)

/-- Parse `, member`* `}` after a member. -/
def parseMembersRest : Nat → Str → Option (List (Str × Json) × Str)
  | 0, _ => none
  | f + 1, input =>
    match skipWs input with
    | '}' :: r => some ([], r)
    | ',' :: r =>
      match parseMember f r with
      | none => none
      | some (m, r1) =>
        match parseMembersRest f r1 with
        | none => none
        | some (ms, r2) => some (m :: ms, r2)
    | _ => none

end

/-- serde_json's `from_str` at the granularity of one line: parse one
value, then require only whitespace to remain. -/
def parseJsonLine (l : Str) : Option Json :=
  match parseValue (2 * l.length + 4) l with
  | none => none
  | some (v, rest) => if (skipWs rest).isEmpty then some v else none

/- ----------------------------------------------------------------
   Wire records and their serde-derive decoders.
   ---------------------------------------------------------------- -/

/-- `V2Header` from the source.  `u8`/`u16`/`u64` fields are `Nat` with
their ranges enforced by decoding; the `f64` field `idle_time_limit`
carries the number token of the JSON value (its `f64` payload), rendered
by `f64Render` at serialization time. -/
structure V2Header where
  version : Nat
  width : Nat
  height : Nat
  timestamp : Option Nat
  idle_time_limit : Option Str
  command : Option Str
  title : Option Str
  env : Option (List (Str × Str))
deriving DecidableEq

/-- The public `Header` from the source (same representation choices). -/
structure Header where
  version : Nat
  cols : Nat
  rows : Nat
  timestamp : Option Nat
  idle_time_limit : Option Str
  command : Option Str
  title : Option Str
  env : Option (List (Str × Str))
deriving DecidableEq

structure V1Stdout where
  time : Nat
  data : Str
deriving DecidableEq

structure V1 where
  version : Nat
  width : Nat
  height : Nat
  command : Option Str
  title : Option Str
  env : Option (List (Str × Str))
  stdout : List V1Stdout
deriving DecidableEq

def kVersion : Str := ['v', 'e', 'r', 's', 'i', 'o', 'n']
def kWidth : Str := ['w', 'i', 'd', 't', 'h']
def kHeight : Str := ['h', 'e', 'i', 'g', 'h', 't']
def kTimestamp : Str := ['t', 'i', 'm', 'e', 's', 't', 'a', 'm', 'p']
def kIdle : Str := ['i', 'd', 'l', 'e', '_', 't', 'i', 'm', 'e', '_', 'l', 'i', 'm', 'i', 't']
def kCommand : Str := ['c', 'o', 'm', 'm', 'a', 'n', 'd']
def kTitle : Str := ['t', 'i', 't', 'l', 'e']
def kEnv : Str := ['e', 'n', 'v']
def kTime : Str := ['t', 'i', 'm', 'e']
def kCode : Str := ['c', 'o', 'd', 'e']
def kData : Str := ['d', 'a', 't', 'a']
def kStdout : Str := ['s', 't', 'd', 'o', 'u', 't']

/-- serde_json's decoding of an unsigned integer type with exclusive upper
bound `bound`: the token must be plain digits (a minus sign, fraction or
exponent makes it a float/signed value and fails) and in range. -/
def decodeUInt (bound : Nat) : Json → Option Nat
  | .num t =>
    if t.isEmpty then none
    else if t.all isDigitC then
      if natOfDigits t < bound then some (natOfDigits t) else none
    else none
  | _ => none

def decodeString : Json → Option Str
  | .str s => some s
  | _ => none

/-- serde_json's decoding of an `f64` field: any number token is accepted;
the token itself is the carried payload. -/
def decodeF64Tok : Json → Option Str
  | .num t => some t
  | _ => none

/-- `HashMap` insertion: replace the value when the key is present,
append otherwise. -/
def envInsert : List (Str × Str) → Str → Str → List (Str × Str)
  | [], k, v => [(k, v)]
  | (k0, v0) :: rest, k, v =>
    if k0 = k then (k0, v) :: rest else (k0, v0) :: envInsert rest k v

def decodeEnvMembers : List (Str × Str) → List (Str × Json) → Option (List (Str × Str))
  | acc, [] => some acc
  | acc, (k, j) :: rest =>
    match j with
    | .str v => decodeEnvMembers (envInsert acc k v) rest
    | _ => none

/-- `HashMap<String, String>` decoding: an object whose values are all
strings, inserted in document order. -/
def decodeEnv : Json → Option (List (Str × Str))
  | .obj ms => decodeEnvMembers [] ms
  | _ => none

/-- serde's `Option<T>` decoding: `null` maps to `None`, anything else
must decode as `T`. -/
def decodeOpt {α : Type} (d : Json → Option α) : Json → Option (Option α)
  | .null => some none
  | j => (d j).map some

/-- Field slots of the serde-derive map visitor for `V2Header`. -/
structure V2Slots where
  version : Option Nat
  width : Option Nat
  height : Option Nat
  timestamp : Option (Option Nat)
  idle_time_limit : Option (Option Str)
  command : Option (Option Str)
  title : Option (Option Str)
  env : Option (Option (List (Str × Str)))

def emptyV2Slots : V2Slots := ⟨none, none, none, none, none, none, none, none⟩

/-- One step of the serde-derive map visitor for `V2Header`: a known key
fills its slot (duplicates are an error), unknown keys are ignored. -/
def v2SetField (sl : V2Slots) (k : Str) (j : Json) : Option V2Slots :=
  if k = kVersion then
    match sl.version with
    | some _ => none
    | none => (decodeUInt 256 j).map (fun n => { sl with version := some n })
  else if k = kWidth then
    match sl.width with
    | some _ => none
    | none => (decodeUInt 65536 j).map (fun n => { sl with width := some n })
  else if k = kHeight then
    match sl.height with
    | some _ => none
    | none => (decodeUInt 65536 j).map (fun n => { sl with height := some n })
  else if k = kTimestamp then
    match sl.timestamp with
    | some _ => none
    | none => (decodeOpt (decodeUInt U64MOD) j).map (fun n => { sl with timestamp := some n })
  else if k = kIdle then
    match sl.idle_time_limit with
    | some _ => none
    | none => (decodeOpt decodeF64Tok j).map (fun n => { sl with idle_time_limit := some n })
  else if k = kCommand then
    match sl.command with
    | some _ => none
    | none => (decodeOpt decodeString j).map (fun n => { sl with command := some n })
  else if k = kTitle then
    match sl.title with
    | some _ => none
    | none => (decodeOpt decodeString j).map (fun n => { sl with title := some n })
  else if k = kEnv then
    match sl.env with
    | some _ => none
    | none => (decodeOpt decodeEnv j).map (fun n => { sl with env := some n })
  else some sl

def v2FoldMembers : V2Slots → List (Str × Json) → Option V2Slots
  | sl, [] => some sl
  | sl, (k, j) :: rest =>
    match v2SetField sl k j with
    | none => none
    | some sl2 => v2FoldMembers sl2 rest

/-- Finish the visitor: `version`, `width`, `height` are required; the
`Option` fields default to `None` when the key was absent. -/
def v2Finish (sl : V2Slots) : Option V2Header :=
  match sl.version, sl.width, sl.height with
  | some v, some w, some h =>
    some ⟨v, w, h, sl.timestamp.getD none, sl.idle_time_limit.getD none,
      sl.command.getD none, sl.title.getD none, sl.env.getD none⟩
  | _, _, _ => none

/-- serde-derive decoding of `V2Header`: from a map via the field visitor,
or positionally from a sequence of exactly 8 elements. -/
def decodeV2Header : Json → Option V2Header
  | .obj ms => (v2FoldMembers emptyV2Slots ms).bind v2Finish
  | .arr es =>
    match es with
    | [v, w, h, ts, idle, cmd, ttl, env] => do
      let v ← decodeUInt 256 v
      let w ← decodeUInt 65536 w
      let h ← decodeUInt 65536 h
      let ts ← decodeOpt (decodeUInt U64MOD) ts
      let idle ← decodeOpt decodeF64Tok idle
      let cmd ← decodeOpt decodeString cmd
      let ttl ← decodeOpt decodeString ttl
      let env ← decodeOpt decodeEnv env
      pure ⟨v, w, h, ts, idle, cmd, ttl, env⟩
    | _ => none
  | _ => none

/-- `deserialize_time` on one JSON element, as `Event`/`V1Stdout` use it:
`value.as_f64()` yields a rendering for numbers and `None` (hence the
empty default string) otherwise. -/
def decodeTimeElem (j : Json) : Except DecErr Nat :=
  deserialize_time_s (match j with | .num t => f64Render t | _ => [])

def decodeV1StdoutMembers : Option Nat × Option Str → List (Str × Json) →
    Option (Option Nat × Option Str)
  | sl, [] => some sl
  | sl, (k, j) :: rest =>
    if k = kTime then
      match sl.1 with
      | some _ => none
      | none =>
        match (decodeTimeElem j).toOption with
        | some t => decodeV1StdoutMembers (some t, sl.2) rest
        | none => none
    else if k = kData then
      match sl.2 with
      | some _ => none
      | none =>
        match decodeString j with
        | some d => decodeV1StdoutMembers (sl.1, some d) rest
        | none => none
    else decodeV1StdoutMembers sl rest

def decodeV1StdoutItem : Json → Option V1Stdout
  | .arr es =>
    match es with
    | [t, d] => do
      let t ← (decodeTimeElem t).toOption
      let d ← decodeString d
      pure ⟨t, d⟩
    | _ => none
  | .obj ms =>
    match decodeV1StdoutMembers (none, none) ms with
    | some (some t, some d) => some ⟨t, d⟩
    | _ => none
  | _ => none

def decodeStdoutList : List Json → Option (List V1Stdout)
  | [] => some []
  | j :: rest =>
    match decodeV1StdoutItem j, decodeStdoutList rest with
    | some e, some es => some (e :: es)
    | _, _ => none

def decodeStdout : Json → Option (List V1Stdout)
  | .arr es => decodeStdoutList es
  | _ => none

/-- Field slots of the serde-derive map visitor for `V1`. -/
structure V1Slots where
  version : Option Nat
  width : Option Nat
  height : Option Nat
  command : Option (Option Str)
  title : Option (Option Str)
  env : Option (Option (List (Str × Str)))
  stdout : Option (List V1Stdout)

def emptyV1Slots : V1Slots := ⟨none, none, none, none, none, none, none⟩

def v1SetField (sl : V1Slots) (k : Str) (j : Json) : Option V1Slots :=
  if k = kVersion then
    match sl.version with
    | some _ => none
    | none => (decodeUInt 256 j).map (fun n => { sl with version := some n })
  else if k = kWidth then
    match sl.width with
    | some _ => none
    | none => (decodeUInt 65536 j).map (fun n => { sl with width := some n })
  else if k = kHeight then
    match sl.height with
    | some _ => none
    | none => (decodeUInt 65536 j).map (fun n => { sl with height := some n })
  else if k = kCommand then
    match sl.command with
    | some _ => none
    | none => (decodeOpt decodeString j).map (fun n => { sl with command := some n })
  else if k = kTitle then
    match sl.title with
    | some _ => none
    | none => (decodeOpt decodeString j).map (fun n => { sl with title := some n })
  else if k = kEnv then
    match sl.env with
    | some _ => none
    | none => (decodeOpt decodeEnv j).map (fun n => { sl with env := some n })
  else if k = kStdout then
    match sl.stdout with
    | some _ => none
    | none => (decodeStdout j).map (fun n => { sl with stdout := some n })
  else some sl

def v1FoldMembers : V1Slots → List (Str × Json) → Option V1Slots
  | sl, [] => some sl
  | sl, (k, j) :: rest =>
    match v1SetField sl k j with
    | none => none
    | some sl2 => v1FoldMembers sl2 rest

def v1Finish (sl : V1Slots) : Option V1 :=
  match sl.version, sl.width, sl.height, sl.stdout with
  | some v, some w, some h, some st =>
    some ⟨v, w, h, sl.command.getD none, sl.title.getD none, sl.env.getD none, st⟩
  | _, _, _, _ => none

/-- serde-derive decoding of the legacy `V1` document. -/
def decodeV1 : Json → Option V1
  | .obj ms => (v1FoldMembers emptyV1Slots ms).bind v1Finish
  | .arr es =>
    match es with
    | [v, w, h, cmd, ttl, env, st] => do
      let v ← decodeUInt 256 v
      let w ← decodeUInt 65536 w
      let h ← decodeUInt 65536 h
      let cmd ← decodeOpt decodeString cmd
      let ttl ← decodeOpt decodeString ttl
      let env ← decodeOpt decodeEnv env
      let st ← decodeStdout st
      pure ⟨v, w, h, cmd, ttl, env, st⟩
    | _ => none
  | _ => none

/- ----------------------------------------------------------------
   Event decoding.
   ---------------------------------------------------------------- -/

def decodeCodeElem : Json → Except DecErr EventCode
  | .str s => deserialize_code s
  | _ => .error .decodeErr

def decodeDataElem : Json → Except DecErr Str
  | .str s => .ok s
  | _ => .error .decodeErr

structure EvSlots where
  time : Option Nat
  code : Option EventCode
  data : Option Str

def evSetField (sl : EvSlots) (k : Str) (j : Json) : Except DecErr EvSlots :=
  if k = kTime then
    match sl.time with
    | some _ => .error .decodeErr
    | none => (decodeTimeElem j).map (fun t => { sl with time := some t })
  else if k = kCode then
    match sl.code with
    | some _ => .error .decodeErr
    | none => (decodeCodeElem j).map (fun c => { sl with code := some c })
  else if k = kData then
    match sl.data with
    | some _ => .error .decodeErr
    | none => (decodeDataElem j).map (fun d => { sl with data := some d })
  else .ok sl

def evFoldMembers : EvSlots → List (Str × Json) → Except DecErr EvSlots
  | sl, [] => .ok sl
  | sl, (k, j) :: rest =>
    match evSetField sl k j with
    | .error e => .error e
    | .ok sl2 => evFoldMembers sl2 rest

/-- serde-derive decoding of `Event`: positionally from a 3-element
sequence (the asciicast line form `[time, code, data]`), or from a map. -/
def decodeEventJson : Json → Except DecErr Event
  | .arr es =>
    match es with
    | [t, c, d] => do
      let time ← decodeTimeElem t
      let code ← decodeCodeElem c
      let data ← decodeDataElem d
      pure ⟨time, code, data⟩
    | _ => .error .decodeErr
  | .obj ms =>
    match evFoldMembers ⟨none, none, none⟩ ms with
    | .error e => .error e
    | .ok sl =>
      match sl.time, sl.code, sl.data with
      | some t, some c, some d => .ok ⟨t, c, d⟩
      | _, _, _ => .error .decodeErr
  | _ => .error .decodeErr

/- ----------------------------------------------------------------
   Header conversions, the reader (`open`), and the writer.
   ---------------------------------------------------------------- -/

/-- `From<V2Header> for Header`: version pinned to 2, `timestamp` and
`idle_time_limit` discarded. -/
def headerOfV2 (h : V2Header) : Header :=
  ⟨2, h.width, h.height, none, none, h.command, h.title, h.env⟩

/-- `From<&V1> for Header`: version pinned to 1, no timestamp or idle
limit in the legacy format. -/
def headerOfV1 (v : V1) : Header :=
  ⟨1, v.width, v.height, none, none, v.command, v.title, v.env⟩

/-- `From<&Header> for V2Header`: version pinned to 2. -/
def v2HeaderOfHeader (h : Header) : V2Header :=
  ⟨2, h.cols, h.rows, h.timestamp, h.idle_time_limit, h.command, h.title, h.env⟩

def decodeV2Line (s : Str) : Option V2Header := (parseJsonLine s).bind decodeV2Header

def decodeV1Doc (s : Str) : Option V1 := (parseJsonLine s).bind decodeV1

/-- `parse_event` from the source: empty lines produce no item; any other
line is decoded into an `Ok` event or an `Err` item. -/
def parse_event (line : Str) : Option (Except DecErr Event) :=
  if line.isEmpty then none
  else some (match parseJsonLine line with
    | none => .error .decodeErr
    | some j => decodeEventJson j)

/-- The result of `open`: a header plus the event sequence (each item an
event or a per-line decode error). -/
structure ReaderOut where
  header : Header
  events : List (Except DecErr Event)
deriving DecidableEq

/-- `open` from the source, over the list of input lines: no first line is
the empty-file error; a first line decoding as a `V2Header` selects the
version-2 path (requiring `version == 2`, then streaming the remaining
lines through `parse_event`); otherwise all lines are concatenated and
decoded as a `V1` document (requiring `version == 1`, all stdout entries
becoming `Output` events; `String::from_utf8_lossy` on the bytes of a
valid UTF-8 string is the identity). -/
def openFirst (first : Str) (rest : List Str) : Except DecErr ReaderOut :=
  match decodeV2Line first with
  | some h =>
    if h.version ≠ 2 then .error .unsupportedVersion
    else .ok ⟨headerOfV2 h, rest.filterMap parse_event⟩
  | none =>
    match decodeV1Doc ((first :: rest).flatten) with
    | none => .error .decodeErr
    | some v1 =>
      if v1.version ≠ 1 then .error .unsupportedVersion
      else .ok ⟨headerOfV1 v1, v1.stdout.map (fun e => .ok ⟨e.time, .Output, e.data⟩)⟩

def openL : List Str → Except DecErr ReaderOut
  | [] => .error .emptyFile
  | first :: rest => openFirst first rest

/- ----------------------------------------------------------------
   Serialization: header line and event lines.
   ---------------------------------------------------------------- -/

/-- The ordered member list produced by the custom `Serialize` impl for
`V2Header`: `version`, `width`, `height`, `timestamp` always (null when
absent), then `idle_time_limit`, `command`, `title` when present, and
`env` when present and nonempty. -/
def serializeV2HeaderEntries (h : V2Header) : List (Str × Json) :=
  [(kVersion, .num (natRepr h.version)),
   (kWidth, .num (natRepr h.width)),
   (kHeight, .num (natRepr h.height)),
   (kTimestamp, match h.timestamp with | none => Json.null | some t => .num (natRepr t))]
  ++ (match h.idle_time_limit with | none => [] | some s => [(kIdle, Json.num (f64Render s))])
  ++ (match h.command with | none => [] | some s => [(kCommand, Json.str s)])
  ++ (match h.title with | none => [] | some s => [(kTitle, Json.str s)])
  ++ (match h.env with
      | none => []
      | some e =>
        if e.isEmpty then []
        else [(kEnv, Json.obj (e.map (fun kv => (kv.1, Json.str kv.2))))])

/-- The `len` counter the `Serialize` impl computes before emitting. -/
def v2HeaderLen (h : V2Header) : Nat :=
  4 + (if h.idle_time_limit.isSome then 1 else 0)
    + (if h.command.isSome then 1 else 0)
    + (if h.title.isSome then 1 else 0)
    + (if (match h.env with | some e => !e.isEmpty | none => false) then 1 else 0)

/-- Compact printing of the leaf values the header serializer emits
(serde_json `to_string`); array/object cases are unreachable for leaves
and handled by `printEntryValue`. -/
def printFlat : Json → Str
  | .null => "null".toList
  | .bool true => "true".toList
  | .bool false => "false".toList
  | .num t => t
  | .str s => printStrJ s
  | .arr _ => []
  | .obj _ => []

def sepComma : List Str → Str
  | [] => []
  | [x] => x
  | x :: y :: rest => x ++ ',' :: sepComma (y :: rest)

def printMemberFlat (m : Str × Json) : Str := printStrJ m.1 ++ ':' :: printFlat m.2

/-- A header entry value is a leaf or the (flat) `env` object. -/
def printEntryValue : Json → Str
  | .obj ms => '{' :: sepComma (ms.map printMemberFlat) ++ ['}']
  | v => printFlat v

/-- serde_json `to_string` of a `V2Header` (compact, members in the order
the `Serialize` impl emits them). -/
def printHeaderLine (h : V2Header) : Str :=
  '{' :: sepComma ((serializeV2HeaderEntries h).map
    (fun m => printStrJ m.1 ++ ':' :: printEntryValue m.2)) ++ ['}']

/-- `serialize_event` from the source:
`format!("[{}, {}, {}]", format_time(time).trim_end_matches('0'),
json(code), json(data))`. -/
def serialize_event (e : Event) : Str :=
  '[' :: encodeTime e.time ++ ',' :: ' ' :: printStrJ (codeText e.code)
    ++ ',' :: ' ' :: printStrJ e.data ++ [']']

/-- `Writer::write_event`: the configured time offset is added (with `u64`
wrap-around) before serializing. -/
def write_event (offset : Nat) (e : Event) : Str :=
  serialize_event { e with time := (e.time + offset) % U64MOD }

/-- `write_header` followed by `write_event` for every event: one header
line, then one line per event. -/
def writeAll (offset : Nat) (h : Header) (es : List Event) : List Str :=
  printHeaderLine (v2HeaderOfHeader h) :: es.map (write_event offset)

/- ----------------------------------------------------------------
   Claim C9: the v2 decoding path discards timestamp and idle_time_limit.
   ---------------------------------------------------------------- -/

/-- C9: whatever the input (in particular a version-2 input whose header
line carries a non-null timestamp and/or idle_time_limit), the `Header`
returned by `open` always has `timestamp = None` and
`idle_time_limit = None`: the `From<V2Header> for Header` conversion
discards both fields. -/
theorem c9_open_discards_timestamp_idle :
    ∀ (lines : List Str) (r : ReaderOut), openL lines = .ok r →
      r.header.timestamp = none ∧ r.header.idle_time_limit = none := by
  intro lines r h
  match lines with
  | [] => exact absurd h (by simp [openL])
  | first :: rest =>
    replace h : openFirst first rest = .ok r := h
    unfold openFirst at h
    cases hv : decodeV2Line first with
    | some vh =>
      simp only [hv] at h
      by_cases h2 : vh.version ≠ 2
      · rw [if_pos h2] at h
        exact absurd h (by simp)
      · rw [if_neg h2] at h
        simp only [Except.ok.injEq] at h
        subst h
        exact ⟨rfl, rfl⟩
    | none =>
      simp only [hv] at h
      cases hv1 : decodeV1Doc ((first :: rest).flatten) with
      | none => simp only [hv1] at h; exact absurd h (by simp)
      | some v1 =>
        simp only [hv1] at h
        by_cases h1 : v1.version ≠ 1
        · rw [if_pos h1] at h
          exact absurd h (by simp)
        · rw [if_neg h1] at h
          simp only [Except.ok.injEq] at h
          subst h
          exact ⟨rfl, rfl⟩

/-- A version-2 header line that carries a non-null timestamp and an
idle_time_limit on the wire. -/
def c9Line : Str :=
  "\x7b\"version\":2,\"width\":80,\"height\":24,\"timestamp\":123,\"idle_time_limit\":1.5\x7d".toList

def c9Reader : ReaderOut := ⟨⟨2, 80, 24, none, none, none, none, none⟩, []⟩

theorem c9_witness :
    c9Reader.header.timestamp = none ∧ c9Reader.header.idle_time_limit = none :=
  c9_open_discards_timestamp_idle [c9Line] c9Reader (by decide)

/- ----------------------------------------------------------------
   Claim C10: a one-line legacy v1 document is captured by the v2 branch.
   ---------------------------------------------------------------- -/

/-- A well-formed legacy version-1 document serialized on a single line. -/
def v1SingleLine : Str :=
  "\x7b\"version\":1,\"width\":100,\"height\":50,\"stdout\":[]\x7d".toList

def v1SingleDoc : V1 := ⟨1, 100, 50, none, none, none, []⟩

/-- C10: the one-line v1 document above is a valid `V1` document (version
1), and its single line also decodes as a `V2Header` record with version 1
(the unknown `stdout` field being ignored), so `open` takes the version-2
branch and fails with the unsupported-version error instead of decoding it
via the version-1 path. -/
theorem c10_v1_single_line_unsupported :
    decodeV1Doc v1SingleLine = some v1SingleDoc
    ∧ v1SingleDoc.version = 1
    ∧ (∃ h, decodeV2Line v1SingleLine = some h ∧ h.version = 1)
    ∧ openL [v1SingleLine] = .error .unsupportedVersion := by
  refine ⟨by decide, rfl, ⟨⟨1, 100, 50, none, none, none, none, none⟩, by decide, rfl⟩, by decide⟩

/- ----------------------------------------------------------------
   Claim C7: error handling of `open` and of event-code decoding.
   ---------------------------------------------------------------- -/

/-- C7: an input with no first line fails with the empty-input error; an
input whose first line decodes as neither a valid V2 header nor (joined
with the remaining lines) a valid version-1 document fails with a decode
or unsupported-version error; and an event whose (time is valid and
whose) code field is the empty string fails with the missing-event-code
error. -/
theorem c7_open_error_handling :
    openL [] = .error .emptyFile
    ∧ (∀ (first : Str) (rest : List Str), decodeV2Line first = none →
        (∀ v, decodeV1Doc ((first :: rest).flatten) = some v → v.version ≠ 1) →
        (openL (first :: rest) = .error .decodeErr ∨
          openL (first :: rest) = .error .unsupportedVersion))
    ∧ (∀ (t d : Json) (n : Nat), decodeTimeElem t = .ok n →
        decodeEventJson (.arr [t, .str [], d]) = .error .missingEventCode) := by
  refine ⟨rfl, ?_, ?_⟩
  · intro first rest hv2 hv1
    show (openFirst first rest = .error .decodeErr ∨ openFirst first rest = .error .unsupportedVersion)
    unfold openFirst
    simp only [hv2]
    cases hd : decodeV1Doc ((first :: rest).flatten) with
    | none => exact Or.inl rfl
    | some v => exact Or.inr (by simp [hv1 v hd])
  · intro t d n ht
    show (do
      let time ← decodeTimeElem t
      let code ← decodeCodeElem (.str [])
      let data ← decodeDataElem d
      pure (⟨time, code, data⟩ : Event)) = Except.error .missingEventCode
    rw [ht]
    rfl

theorem c7_witness :
    (openL [('[' :: [']'] : Str)] = .error .decodeErr ∨
      openL [('[' :: [']'] : Str)] = .error .unsupportedVersion)
    ∧ decodeEventJson (.arr [.num ['1', '.', '5'], .str [], .str ['x']])
        = .error .missingEventCode := by
  constructor
  · exact c7_open_error_handling.2.1 ('[' :: [']']) []
      (by decide)
      (fun v hv => by
        rw [(by decide : decodeV1Doc ((('[' :: [']'] : Str) :: ([] : List Str)).flatten) = none)] at hv
        exact absurd hv (by simp))
  · exact c7_open_error_handling.2.2 (.num ['1', '.', '5']) (.str ['x']) 1500000 (by decide)

/- ----------------------------------------------------------------
   Claim C4: header field order and omission policy.
   ---------------------------------------------------------------- -/

theorem hexChar_ne_nl {d : Nat} (h : d < 16) : '\n' ≠ hexChar d := by
  interval_cases d <;> decide

theorem noNL_escapeChar (c : Char) : '\n' ∉ escapeChar c := by
  unfold escapeChar
  split_ifs with h1 h2 h3 h4 h5 h6 h7 h8
  · decide
  · decide
  · decide
  · decide
  · decide
  · decide
  · decide
  · intro hm
    simp only [List.mem_cons, List.not_mem_nil, or_false] at hm
    rcases hm with h | h | h | h | h | h
    · exact absurd h (by decide)
    · exact absurd h (by decide)
    · exact absurd h (by decide)
    · exact absurd h (by decide)
    · exact hexChar_ne_nl (by omega) h
    · exact hexChar_ne_nl (by omega) h
  · intro hm
    simp only [List.mem_cons, List.not_mem_nil, or_false] at hm
    exact h5 (hm ▸ (by decide : ('\n').toNat = 10))

theorem noNL_escapeStr (s : Str) : '\n' ∉ escapeStr s := by
  induction s with
  | nil => simp [escapeStr]
  | cons c cs ih =>
    show '\n' ∉ escapeChar c ++ escapeStr cs
    intro hm
    rcases List.mem_append.mp hm with h | h
    · exact noNL_escapeChar c h
    · exact ih h

theorem noNL_printStrJ (s : Str) : '\n' ∉ printStrJ s := by
  intro hm
  unfold printStrJ at hm
  rcases List.mem_cons.mp hm with h | h
  · exact absurd h (by decide)
  · rcases List.mem_append.mp h with h2 | h2
    · exact noNL_escapeStr s h2
    · simp only [List.mem_cons, List.not_mem_nil, or_false] at h2
      exact absurd h2 (by decide)


theorem ne_nl_of_digit {c : Char} (h : isDigitC c = true) : c ≠ '\n' := by
  simp only [isDigitC, Bool.and_eq_true, decide_eq_true_eq] at h
  intro hc
  subst hc
  revert h
  decide

theorem noNL_natRepr (n : Nat) : '\n' ∉ natRepr n := by
  intro hm
  have hall := natRepr_all_digits n
  rw [List.all_eq_true] at hall
  exact ne_nl_of_digit (hall _ hm) rfl

theorem parseNumTokExp_parts {neg : Bool} {ip fp r2 : Str} {n : NumTok}
    (h : parseNumTokExp neg ip fp r2 = some n) :
    n.neg = neg ∧ n.int = ip ∧ n.frac = fp := by
  cases r2 with
  | nil =>
    simp only [parseNumTokExp, Option.some.injEq] at h
    subst h
    exact ⟨rfl, rfl, rfl⟩
  | cons e r3 =>
    unfold parseNumTokExp at h
    dsimp only at h
    by_cases he : e = 'e' ∨ e = 'E'
    · rw [if_pos he] at h
      by_cases hed : ((if r3.head? = some '-' ∨ r3.head? = some '+' then r3.tail
            else r3).takeWhile isDigitC).isEmpty
          ∨ ¬((if r3.head? = some '-' ∨ r3.head? = some '+' then r3.tail
            else r3).dropWhile isDigitC).isEmpty
      · rw [if_pos hed] at h
        exact absurd h (by simp)
      · rw [if_neg hed] at h
        simp only [Option.some.injEq] at h
        subst h
        exact ⟨rfl, rfl, rfl⟩
    · rw [if_neg he] at h
      exact absurd h (by simp)

theorem parseNumTokFrac_parts {neg : Bool} {ip r1 : Str} {n : NumTok}
    (h : parseNumTokFrac neg ip r1 = some n) :
    n.neg = neg ∧ n.int = ip ∧ n.frac.all isDigitC = true := by
  unfold parseNumTokFrac at h
  by_cases hdot : r1.head? = some '.'
  · rw [if_pos hdot] at h
    by_cases hfp : (r1.tail.takeWhile isDigitC).isEmpty
    · rw [if_pos hfp] at h
      exact absurd h (by simp)
    · rw [if_neg hfp] at h
      obtain ⟨h1, h2, h3⟩ := parseNumTokExp_parts h
      refine ⟨h1, h2, ?_⟩
      rw [h3, List.all_eq_true]
      intro x hx
      exact List.mem_takeWhile_imp hx
  · rw [if_neg hdot] at h
    obtain ⟨h1, h2, h3⟩ := parseNumTokExp_parts h
    exact ⟨h1, h2, by rw [h3]; rfl⟩

theorem parseNumTok_digits {s : Str} {n : NumTok} (h : parseNumTok s = some n) :
    n.int.all isDigitC = true ∧ n.frac.all isDigitC = true := by
  unfold parseNumTok at h
  by_cases hip : (((if s.head? = some '-' then s.tail else s) : Str).takeWhile
      isDigitC).isEmpty
  · rw [if_pos hip] at h
    exact absurd h (by simp)
  · rw [if_neg hip] at h
    obtain ⟨_, h2, h3⟩ := parseNumTokFrac_parts h
    refine ⟨?_, h3⟩
    rw [h2, List.all_eq_true]
    intro x hx
    exact List.mem_takeWhile_imp hx

theorem mem_trimZeros {x : Char} {s : Str} (h : x ∈ trimZeros s) : x ∈ s := by
  unfold trimZeros at h
  rw [List.mem_reverse] at h
  exact List.mem_reverse.mp (List.dropWhile_subset _ h)

theorem renderBody_chars {D : Str} (hD : ∀ y ∈ D, isDigitC y = true) (e10 : Int) :
    ∀ x ∈ renderBody D e10, isDigitC x = true ∨ x = '.' := by
  intro x hx
  unfold renderBody at hx
  split_ifs at hx with h1 h2 h3
  · simp only [List.mem_cons, List.mem_append] at hx
    rcases hx with h | h | h | h
    · left; subst h; decide
    · right; exact h
    · left; rw [List.eq_of_mem_replicate h]; decide
    · left; exact hD _ (mem_trimZeros h)
  · left; exact hD _ (List.take_subset _ _ hx)
  · simp only [List.mem_append, List.mem_cons] at hx
    rcases hx with h | h | h
    · left; exact hD _ (List.take_subset _ _ h)
    · right; exact h
    · left; exact hD _ (List.drop_subset _ _ (mem_trimZeros h))
  · rcases List.mem_append.mp hx with h | h
    · left; exact hD _ h
    · left; rw [List.eq_of_mem_replicate h]; decide

/-- Every character of an `f64` rendering is a digit, a minus sign or a
decimal point. -/
theorem f64Render_chars (s : Str) :
    ∀ x ∈ f64Render s, isDigitC x = true ∨ x = '-' ∨ x = '.' := by
  intro x hx
  unfold f64Render at hx
  revert hx
  cases hp : parseNumTok s with
  | none =>
    intro hx
    simp only [List.mem_cons, List.not_mem_nil, or_false] at hx
    left; subst hx; decide
  | some n =>
    intro hx
    have hd := parseNumTok_digits hp
    have hDdig : ∀ y ∈ (n.int ++ n.frac).dropWhile (fun c => c = '0'), isDigitC y = true := by
      intro y hy
      have hy2 := List.dropWhile_subset _ hy
      rcases List.mem_append.mp hy2 with h | h
      · exact (List.all_eq_true.mp hd.1) _ h
      · exact (List.all_eq_true.mp hd.2) _ h
    simp only at hx
    split_ifs at hx with h1 h2 h3
    · simp only [List.mem_cons, List.not_mem_nil, or_false] at hx
      rcases hx with h | h
      · right; left; exact h
      · left; subst h; decide
    · simp only [List.mem_cons, List.not_mem_nil, or_false] at hx
      left; subst hx; decide
    · simp only [List.mem_cons] at hx
      rcases hx with h | h
      · right; left; exact h
      · rcases renderBody_chars hDdig _ _ h with h | h
        · left; exact h
        · right; right; exact h
    · rcases renderBody_chars hDdig _ _ hx with h | h
      · left; exact h
      · right; right; exact h

theorem noNL_f64Render (s : Str) : '\n' ∉ f64Render s := by
  intro hm
  rcases f64Render_chars s _ hm with h | h | h
  · exact ne_nl_of_digit h rfl
  · exact absurd h (by decide)
  · exact absurd h (by decide)

theorem mem_sepComma {x : Char} : ∀ {l : List Str}, x ∈ sepComma l → x = ',' ∨ ∃ s ∈ l, x ∈ s := by
  intro l
  induction l with
  | nil => intro h; exact absurd h (by simp [sepComma])
  | cons a t ih =>
    cases t with
    | nil =>
      intro h
      right
      exact ⟨a, by simp, by simpa [sepComma] using h⟩
    | cons b t2 =>
      intro h
      rw [sepComma] at h
      rcases List.mem_append.mp h with h1 | h1
      · right; exact ⟨a, by simp, h1⟩
      · rcases List.mem_cons.mp h1 with h2 | h2
        · left; exact h2
        · rcases ih h2 with h3 | ⟨s, hs, hx⟩
          · left; exact h3
          · right; exact ⟨s, by simp [hs], hx⟩

/-- Shape of the values the header serializer can emit. -/
theorem headerEntry_value {h : V2Header} {m : Str × Json}
    (hm : m ∈ serializeV2HeaderEntries h) :
    (∃ n, m.2 = Json.num (natRepr n)) ∨ m.2 = Json.null
    ∨ (∃ s, m.2 = Json.num (f64Render s)) ∨ (∃ s, m.2 = Json.str s)
    ∨ (∃ e : List (Str × Str), m.2 = Json.obj (e.map (fun kv => (kv.1, Json.str kv.2)))) := by
  unfold serializeV2HeaderEntries at hm
  rcases List.mem_append.mp hm with hm | hm
  · rcases List.mem_append.mp hm with hm | hm
    · rcases List.mem_append.mp hm with hm | hm
      · rcases List.mem_append.mp hm with hm | hm
        · simp only [List.mem_cons, List.not_mem_nil, or_false] at hm
          rcases hm with hm | hm | hm | hm
          · left; exact ⟨h.version, by rw [hm]⟩
          · left; exact ⟨h.width, by rw [hm]⟩
          · left; exact ⟨h.height, by rw [hm]⟩
          · cases hts : h.timestamp with
            | none => right; left; rw [hm, hts]
            | some t => left; exact ⟨t, by rw [hm, hts]⟩
        · cases hid : h.idle_time_limit with
          | none => rw [hid] at hm; exact absurd hm (by simp)
          | some s =>
            rw [hid] at hm
            simp only [List.mem_cons, List.not_mem_nil, or_false] at hm
            right; right; left; exact ⟨s, by rw [hm]⟩
      · cases hc : h.command with
        | none => rw [hc] at hm; exact absurd hm (by simp)
        | some s =>
          rw [hc] at hm
          simp only [List.mem_cons, List.not_mem_nil, or_false] at hm
          right; right; right; left; exact ⟨s, by rw [hm]⟩
    · cases hc : h.title with
      | none => rw [hc] at hm; exact absurd hm (by simp)
      | some s =>
        rw [hc] at hm
        simp only [List.mem_cons, List.not_mem_nil, or_false] at hm
        right; right; right; left; exact ⟨s, by rw [hm]⟩
  · cases hc : h.env with
    | none => rw [hc] at hm; exact absurd hm (by simp)
    | some e =>
      rw [hc] at hm
      dsimp only at hm
      by_cases he : e.isEmpty
      · rw [if_pos he] at hm; exact absurd hm (by simp)
      · rw [if_neg he] at hm
        simp only [List.mem_cons, List.not_mem_nil, or_false] at hm
        right; right; right; right; exact ⟨e, by rw [hm]⟩

theorem noNL_printEntryValue {h : V2Header} {m : Str × Json}
    (hm : m ∈ serializeV2HeaderEntries h) : '\n' ∉ printEntryValue m.2 := by
  intro hx
  rcases headerEntry_value hm with ⟨n, hv⟩ | hv | ⟨s, hv⟩ | ⟨s, hv⟩ | ⟨e, hv⟩
  · rw [hv] at hx; exact noNL_natRepr n hx
  · rw [hv] at hx; exact absurd hx (by decide)
  · rw [hv] at hx; exact noNL_f64Render s hx
  · rw [hv] at hx; exact noNL_printStrJ s hx
  · rw [hv] at hx
    replace hx : '\n' ∈ ('{' ::
        sepComma ((e.map (fun kv => (kv.1, Json.str kv.2))).map printMemberFlat) ++ ['}']) := hx
    rcases List.mem_cons.mp hx with h1 | h1
    · exact absurd h1 (by decide)
    rcases List.mem_append.mp h1 with h2 | h2
    · rcases mem_sepComma h2 with h3 | ⟨s2, hs2, hx2⟩
      · exact absurd h3 (by decide)
      · rcases List.mem_map.mp hs2 with ⟨mm, hmm, hpr⟩
        rcases List.mem_map.mp hmm with ⟨kv, _, hkv⟩
        subst hpr
        subst hkv
        unfold printMemberFlat at hx2
        rcases List.mem_append.mp hx2 with h4 | h4
        · exact noNL_printStrJ _ h4
        · rcases List.mem_cons.mp h4 with h5 | h5
          · exact absurd h5 (by decide)
          · exact noNL_printStrJ _ h5
    · simp only [List.mem_cons, List.not_mem_nil, or_false] at h2
      exact absurd h2 (by decide)

/-- C4: `write_header` emits exactly one line (no newline inside the
serialized header) whose fields appear in the fixed order `version`,
`width`, `height`, `timestamp` (always emitted, null when absent), then
`idle_time_limit`, `command`, `title`, `env`, each of the latter emitted
only when present, `env` additionally omitted when empty; the member
count also matches the `len` the `Serialize` impl computes. -/
theorem c4_header_serialization (h : V2Header) :
    (serializeV2HeaderEntries h).map Prod.fst =
      [kVersion, kWidth, kHeight, kTimestamp]
        ++ (if h.idle_time_limit.isSome then [kIdle] else [])
        ++ (if h.command.isSome then [kCommand] else [])
        ++ (if h.title.isSome then [kTitle] else [])
        ++ (match h.env with
            | some e => if e.isEmpty then [] else [kEnv]
            | none => [])
    ∧ (serializeV2HeaderEntries h)[3]? =
        some (kTimestamp,
          match h.timestamp with | none => Json.null | some t => Json.num (natRepr t))
    ∧ (serializeV2HeaderEntries h).length = v2HeaderLen h
    ∧ '\n' ∉ printHeaderLine h := by
  refine ⟨?_, ?_, ?_, ?_⟩
  · obtain ⟨v, w, hh, ts, idle, cmd, ttl, env⟩ := h
    rcases idle with _ | i <;> rcases cmd with _ | c <;> rcases ttl with _ | t <;>
      rcases env with _ | e
    all_goals try rcases e with _ | ⟨kv, e2⟩
    all_goals simp [serializeV2HeaderEntries]
  · obtain ⟨v, w, hh, ts, idle, cmd, ttl, env⟩ := h
    simp [serializeV2HeaderEntries]
  · obtain ⟨v, w, hh, ts, idle, cmd, ttl, env⟩ := h
    rcases idle with _ | i <;> rcases cmd with _ | c <;> rcases ttl with _ | t <;>
      rcases env with _ | e
    all_goals try rcases e with _ | ⟨kv, e2⟩
    all_goals simp [serializeV2HeaderEntries, v2HeaderLen]
  · intro hm
    unfold printHeaderLine at hm
    rcases List.mem_cons.mp hm with h1 | h1
    · exact absurd h1 (by decide)
    rcases List.mem_append.mp h1 with h2 | h2
    · rcases mem_sepComma h2 with h3 | ⟨s, hs, hx⟩
      · exact absurd h3 (by decide)
      · rcases List.mem_map.mp hs with ⟨m, hmem, hpr⟩
        subst hpr
        rcases List.mem_append.mp hx with h4 | h4
        · exact noNL_printStrJ _ h4
        · rcases List.mem_cons.mp h4 with h5 | h5
          · exact absurd h5 (by decide)
          · exact noNL_printEntryValue hmem h5
    · simp only [List.mem_cons, List.not_mem_nil, or_false] at h2
      exact absurd h2 (by decide)

theorem c4_witness :
    (serializeV2HeaderEntries ⟨2, 80, 24, none, none, none, none, none⟩).map Prod.fst =
      [kVersion, kWidth, kHeight, kTimestamp] ++ [] ++ [] ++ [] ++ [] :=
  (c4_header_serialization ⟨2, 80, 24, none, none, none, none, none⟩).1

/- ----------------------------------------------------------------
   Claim C1: the v2 round-trip.
   ---------------------------------------------------------------- -/

def c1Lines : List Str :=
  ["\x7b\"version\":2,\"width\":80,\"height\":24,\"timestamp\":null\x7d".toList,
   "[3.0000001, \"o\", \"x\"]".toList]

def c1Event : Event := ⟨3000000, .Output, ['x']⟩

def c1Reader : ReaderOut := ⟨⟨2, 80, 24, none, none, none, none, none⟩, [.ok c1Event]⟩

/-- C1 counterexample: a valid version-2 input whose single event time
`3.0000001` decodes to exactly 3,000,000 microseconds.  Re-writing it
emits the time as `3.` (trailing-zero trimming removes all fractional
digits but never the decimal point), which is not a valid JSON number, so
re-opening the written file yields a decode error in place of the event:
the decoded semantic content differs. -/
theorem c1_counterexample :
    openL c1Lines = .ok c1Reader
    ∧ openL (writeAll 0 c1Reader.header [c1Event]) =
        .ok ⟨c1Reader.header, [.error .decodeErr]⟩
    ∧ ([.error .decodeErr] : List (Except DecErr Event)) ≠ c1Reader.events := by
  refine ⟨by decide, by decide, by decide⟩

/- ----------------------------------------------------------------
   Lemmas about lexing printed number tokens.
   ---------------------------------------------------------------- -/

theorem takeWhile_of_all {p : Char → Bool} {l : Str} (h : l.all p = true) :
    l.takeWhile p = l := by
  have := takeWhile_append_of_all h ([] : Str)
  simpa using this

theorem dropWhile_of_all {p : Char → Bool} {l : Str} (h : l.all p = true) :
    l.dropWhile p = [] := by
  have := dropWhile_append_of_all h ([] : Str)
  simpa using this

theorem digit_bounds {c : Char} (h : isDigitC c = true) : 48 ≤ c.toNat ∧ c.toNat ≤ 57 := by
  simpa [isDigitC, Bool.and_eq_true, decide_eq_true_eq] using h

theorem digit_ne_char {c d : Char} (h : isDigitC c = true)
    (hd : d.toNat < 48 ∨ 57 < d.toNat) : c ≠ d := by
  intro he
  subst he
  have := digit_bounds h
  omega

/-- No more digits can be consumed at the start of `rest`. -/
def DigitStop (rest : Str) : Prop := ∀ c, rest.head? = some c → isDigitC c = false

/-- `rest` cannot extend a number token. -/
def TokStop (rest : Str) : Prop := ∀ c, rest.head? = some c →
  isDigitC c = false ∧ c ≠ '.' ∧ c ≠ 'e' ∧ c ≠ 'E'

theorem TokStop.digitStop {rest : Str} (h : TokStop rest) : DigitStop rest :=
  fun c hc => (h c hc).1

theorem takeWhile_digits_stop {rest : Str} (h : DigitStop rest) :
    rest.takeWhile isDigitC = [] := by
  cases rest with
  | nil => rfl
  | cons c r => exact takeWhile_cons_of_neg r (h c rfl)

theorem dropWhile_digits_stop {rest : Str} (h : DigitStop rest) :
    rest.dropWhile isDigitC = rest := by
  cases rest with
  | nil => rfl
  | cons c r => exact dropWhile_cons_of_neg r (h c rfl)

theorem natRepr_head_digit (a : Nat) : ∃ c cs, natRepr a = c :: cs ∧ isDigitC c = true
    ∧ cs.all isDigitC = true ∧ (a ≠ 0 → c ≠ '0') := by
  cases hrep : natRepr a with
  | nil => exact absurd hrep (natRepr_ne_nil a)
  | cons c cs =>
    have hall := natRepr_all_digits a
    rw [hrep, List.all_cons, Bool.and_eq_true] at hall
    refine ⟨c, cs, rfl, hall.1, hall.2, ?_⟩
    intro ha hc
    have := natRepr_head_ne_zero (n := a) (by omega)
    rw [hrep] at this
    subst hc
    exact this rfl

theorem lexInt_natRepr (a : Nat) (rest : Str) (hstop : DigitStop rest) :
    lexInt (natRepr a ++ rest) = some (natRepr a, rest) := by
  by_cases ha : a = 0
  · subst ha
    show lexInt ('0' :: rest) = some (['0'], rest)
    rfl
  · obtain ⟨c, cs, hrep, hc, hcs, hz⟩ := natRepr_head_digit a
    rw [hrep]
    show lexInt (c :: (cs ++ rest)) = some (c :: cs, rest)
    unfold lexInt
    dsimp only
    rw [if_neg (fun he => hz ha he), if_pos hc]
    rw [takeWhile_append_of_all hcs, takeWhile_digits_stop hstop]
    rw [dropWhile_append_of_all hcs, dropWhile_digits_stop hstop]
    simp

theorem lexFrac_no_dot (s : Str) (h : s.head? ≠ some '.') : lexFrac s = some ([], s) := by
  unfold lexFrac
  rw [if_neg h]

theorem lexFrac_dot (F rest : Str) (hF : F ≠ []) (hdig : F.all isDigitC = true)
    (hstop : DigitStop rest) :
    lexFrac ('.' :: (F ++ rest)) = some ('.' :: F, rest) := by
  show (if ((F ++ rest).takeWhile isDigitC).isEmpty = true then none
    else some ('.' :: (F ++ rest).takeWhile isDigitC, (F ++ rest).dropWhile isDigitC))
    = some ('.' :: F, rest)
  rw [takeWhile_append_of_all hdig, takeWhile_digits_stop hstop,
    dropWhile_append_of_all hdig, dropWhile_digits_stop hstop]
  rw [if_neg (by simpa using hF)]
  simp

theorem lexExp_stop (s : Str) (h : ∀ c, s.head? = some c → c ≠ 'e' ∧ c ≠ 'E') :
    lexExp s = some ([], s) := by
  cases s with
  | nil => rfl
  | cons c r =>
    unfold lexExp
    dsimp only
    have := h c rfl
    rw [if_neg (by rintro (h1 | h1) <;> [exact this.1 h1; exact this.2 h1])]

theorem head?_append_cons {c : Char} (cs b : Str) :
    ((c :: cs) ++ b).head? = some c := rfl

theorem lexNumber_natRepr (a : Nat) (rest : Str) (hstop : TokStop rest)
    (hdot : ∀ c, rest.head? = some c → c ≠ '.') :
    lexNumber (natRepr a ++ rest) = some (natRepr a, rest) := by
  obtain ⟨c, cs, hrep, hc, _, _⟩ := natRepr_head_digit a
  unfold lexNumber
  rw [hrep, head?_append_cons]
  rw [if_neg (by
    intro he
    exact digit_ne_char hc (by decide) (Option.some.inj he))]
  rw [← hrep]
  unfold lexNumberBody
  rw [lexInt_natRepr a rest hstop.digitStop]
  show (do
    let (fp, r2) ← lexFrac rest
    let (ep, r3) ← lexExp r2
    pure (natRepr a ++ fp ++ ep, r3)) = some (natRepr a, rest)
  rw [lexFrac_no_dot rest (by
    cases rest with
    | nil => simp
    | cons x r => intro hx; exact hdot x rfl (Option.some.inj hx))]
  show (do
    let (ep, r3) ← lexExp rest
    pure (natRepr a ++ ([] : Str) ++ ep, r3)) = some (natRepr a, rest)
  rw [lexExp_stop rest (fun x hx => ⟨(hstop x hx).2.2.1, (hstop x hx).2.2.2⟩)]
  simp

theorem lexNumber_natRepr_frac (a : Nat) (F rest : Str) (hF : F ≠ [])
    (hdig : F.all isDigitC = true) (hstop : TokStop rest) :
    lexNumber ((natRepr a ++ '.' :: F) ++ rest) = some (natRepr a ++ '.' :: F, rest) := by
  obtain ⟨c, cs, hrep, hc, _, _⟩ := natRepr_head_digit a
  unfold lexNumber
  rw [List.append_assoc]
  rw [hrep, head?_append_cons]
  rw [if_neg (by
    intro he
    exact digit_ne_char hc (by decide) (Option.some.inj he))]
  rw [← hrep]
  unfold lexNumberBody
  rw [show (('.' :: F : Str) ++ rest) = '.' :: (F ++ rest) from rfl]
  rw [lexInt_natRepr a ('.' :: (F ++ rest)) (fun x hx => by
    rw [show ('.' :: (F ++ rest) : Str).head? = some '.' from rfl] at hx
    rw [← Option.some.inj hx]
    decide)]
  show (do
    let (fp, r2) ← lexFrac ('.' :: (F ++ rest))
    let (ep, r3) ← lexExp r2
    pure (natRepr a ++ fp ++ ep, r3)) = some (natRepr a ++ '.' :: F, rest)
  rw [lexFrac_dot F rest hF hdig hstop.digitStop]
  show (do
    let (ep, r3) ← lexExp rest
    pure (natRepr a ++ ('.' :: F) ++ ep, r3)) = some (natRepr a ++ '.' :: F, rest)
  rw [lexExp_stop rest (fun x hx => ⟨(hstop x hx).2.2.1, (hstop x hx).2.2.2⟩)]
  simp

/- ----------------------------------------------------------------
   Trimming lemmas and the time-token round-trip.
   ---------------------------------------------------------------- -/

theorem natReprAux_length : ∀ f n k, n < 10 ^ k → (natReprAux f n).length ≤ k := by
  intro f
  induction f with
  | zero => intro n k _; simp [natReprAux]
  | succ f ih =>
    intro n k h
    match n with
    | 0 => simp [natReprAux]
    | n + 1 =>
      rw [natReprAux, List.length_append]
      simp only [List.length_cons, List.length_nil]
      have hk : 1 ≤ k := by
        by_contra hk2
        push_neg at hk2
        interval_cases k
        simp at h
      have hpow : 10 ^ k = 10 ^ (k - 1) * 10 := by
        conv_lhs => rw [show k = (k - 1) + 1 by omega]
        ring
      have hdiv : (n + 1) / 10 < 10 ^ (k - 1) := by omega
      have := ih ((n + 1) / 10) (k - 1) hdiv
      omega

theorem natRepr_length_le {n k : Nat} (h : n < 10 ^ k) (hk : 1 ≤ k) :
    (natRepr n).length ≤ k := by
  unfold natRepr
  split
  · simpa using hk
  · exact natReprAux_length n n k h

theorem dropWhile_head_false {p : Char → Bool} : ∀ {l : Str} {c : Char} {r : Str},
    l.dropWhile p = c :: r → p c = false := by
  intro l
  induction l with
  | nil => intro c r h; exact absurd h (by simp)
  | cons x xs ih =>
    intro c r h
    by_cases hx : p x
    · rw [List.dropWhile_cons_of_pos hx] at h
      exact ih h
    · rw [List.dropWhile_cons_of_neg hx] at h
      injection h with h1 _
      rw [← h1]
      exact Bool.not_eq_true _ ▸ (by simpa using hx)

theorem dropWhile_idem {p : Char → Bool} (l : Str) :
    (l.dropWhile p).dropWhile p = l.dropWhile p := by
  cases h : l.dropWhile p with
  | nil => rfl
  | cons c r => exact dropWhile_cons_of_neg r (dropWhile_head_false h)

theorem trimZeros_trimZeros (s : Str) : trimZeros (trimZeros s) = trimZeros s := by
  unfold trimZeros
  rw [List.reverse_reverse, dropWhile_idem]

theorem takeWhile_zeros_replicate (s : Str) :
    s.takeWhile (fun c => c = '0')
      = List.replicate (s.takeWhile (fun c => c = '0')).length '0' := by
  rw [List.eq_replicate_iff]
  refine ⟨rfl, ?_⟩
  intro b hb
  have := List.mem_takeWhile_imp hb
  simpa using this

theorem trimZeros_decomp (s : Str) :
    s = trimZeros s ++ List.replicate (s.length - (trimZeros s).length) '0' := by
  have hsplit := List.takeWhile_append_dropWhile (p := fun c => c = '0') (l := s.reverse)
  have hlen : (s.reverse.takeWhile (fun c => c = '0')).length
      + (s.reverse.dropWhile (fun c => c = '0')).length = s.length := by
    have h1 := congrArg List.length hsplit
    rw [List.length_append, List.length_reverse] at h1
    exact h1
  calc s = s.reverse.reverse := (List.reverse_reverse s).symm
    _ = (s.reverse.takeWhile (fun c => c = '0')
          ++ s.reverse.dropWhile (fun c => c = '0')).reverse := by rw [hsplit]
    _ = (s.reverse.dropWhile (fun c => c = '0')).reverse
          ++ (s.reverse.takeWhile (fun c => c = '0')).reverse := by
        rw [List.reverse_append]
    _ = trimZeros s ++ List.replicate (s.length - (trimZeros s).length) '0' := by
        unfold trimZeros
        congr 1
        rw [takeWhile_zeros_replicate, List.reverse_replicate]
        congr 1
        rw [List.length_reverse]
        have h2 := congrArg List.length
          (List.takeWhile_append_dropWhile (p := fun c => c = '0') (l := s.reverse))
        rw [List.length_append, List.length_reverse] at h2
        omega

theorem trimZeros_length_le (s : Str) : (trimZeros s).length ≤ s.length := by
  have := trimZeros_decomp s
  have hl := congrArg List.length this
  rw [List.length_append] at hl
  omega

theorem trimZeros_ne_nil {s : Str} (h : ∃ c ∈ s, c ≠ '0') : trimZeros s ≠ [] := by
  intro h0
  obtain ⟨c, hc, hne⟩ := h
  have hd := trimZeros_decomp s
  rw [h0, List.nil_append] at hd
  rw [hd] at hc
  exact hne (List.eq_of_mem_replicate hc)

theorem trimZeros_replicate (k : Nat) : trimZeros (List.replicate k '0') = [] := by
  unfold trimZeros
  rw [List.reverse_replicate, dropWhile_of_all (by
    rw [List.all_eq_true]
    intro a ha
    simpa using List.eq_of_mem_replicate ha)]
  rfl

theorem trimZeros_eq_self_suffix {K D : Str} (hD : D ≠ [])
    (h : trimZeros (K ++ D) = K ++ D) : trimZeros D = D := by
  obtain ⟨d, ds, hrev⟩ : ∃ d ds, D.reverse = d :: ds := by
    cases hD2 : D.reverse with
    | nil =>
      exfalso
      apply hD
      have := congrArg List.reverse hD2
      simpa using this
    | cons d ds => exact ⟨d, ds, rfl⟩
  by_cases hz : d = '0'
  · exfalso
    unfold trimZeros at h
    rw [List.reverse_append, hrev, List.cons_append] at h
    subst hz
    rw [List.dropWhile_cons_of_pos (by decide)] at h
    have hlen := congrArg List.length h
    have hle := ((List.dropWhile_sublist (l := ds ++ K.reverse)
      (fun c => c = '0')).length_le)
    have hDlen : D.length = ds.length + 1 := by
      have := congrArg List.length hrev
      simpa [List.length_reverse] using this
    rw [List.length_reverse, List.length_append] at hlen
    rw [List.length_append, List.length_reverse] at hle
    omega
  · unfold trimZeros
    rw [hrev, dropWhile_cons_of_neg ds (by simpa using hz)]
    rw [← hrev, List.reverse_reverse]

theorem natOfDigits_replicate_zeros (k : Nat) (s : Str) :
    natOfDigits (List.replicate k '0' ++ s) = natOfDigits s := by
  induction k with
  | zero => simp
  | succ k ih =>
    rw [List.replicate_succ, List.cons_append]
    show natOfDigits ('0' :: (List.replicate k '0' ++ s)) = _
    unfold natOfDigits at ih ⊢
    simp only [List.foldl_cons]
    have : (0 : Nat) * 10 + digitVal '0' = 0 := by decide
    rw [this]
    exact ih

/-- The canonical time token `<seconds>.<trimmed-remainder>` is a fixed
point of the `f64` rendering model. -/
theorem f64Render_fixed {a : Nat} {F : Str} (hF : F ≠ []) (hdig : F.all isDigitC = true)
    (htrim : trimZeros F = F) :
    f64Render (natRepr a ++ '.' :: F) = natRepr a ++ '.' :: F := by
  have hne : (natRepr a ++ '.' :: F).head? ≠ some '-' := by
    obtain ⟨c, cs, hrep, hc, _, _⟩ := natRepr_head_digit a
    rw [hrep, head?_append_cons]
    intro he
    exact digit_ne_char hc (by decide) (Option.some.inj he)
  have hptok : parseNumTok (natRepr a ++ '.' :: F) = some ⟨false, natRepr a, F, 0⟩ := by
    have hnegval : decide ((natRepr a ++ '.' :: F).head? = some '-') = false :=
      decide_eq_false hne
    unfold parseNumTok
    rw [if_neg hne]
    rw [takeWhile_append_of_all (natRepr_all_digits a),
      takeWhile_cons_of_neg _ (by decide), List.append_nil]
    rw [dropWhile_append_of_all (natRepr_all_digits a),
      dropWhile_cons_of_neg _ (by decide)]
    rw [if_neg (by simpa using natRepr_ne_nil a)]
    rw [hnegval]
    unfold parseNumTokFrac
    rw [if_pos (show (('.' :: F : Str)).head? = some '.' from rfl), List.tail_cons]
    rw [takeWhile_of_all hdig, dropWhile_of_all hdig]
    rw [if_neg (by simpa using hF)]
    rfl
  unfold f64Render
  rw [hptok]
  dsimp only
  by_cases ha : a = 0
  · subst ha
    rw [show natRepr 0 = ['0'] from rfl]
    show (if (List.dropWhile (fun c => c = '0') (['0'] ++ F)).isEmpty = true then _ else _) = _
    have hD0 : List.dropWhile (fun c => c = '0') (['0'] ++ F)
        = List.dropWhile (fun c => c = '0') F := by
      show List.dropWhile (fun c => c = '0') ('0' :: F) = _
      rw [List.dropWhile_cons_of_pos (by simp)]
    rw [hD0]
    set K := F.takeWhile (fun c => c = '0') with hK
    set D := F.dropWhile (fun c => c = '0') with hDdef
    have hFKD : K ++ D = F := by
      rw [hK, hDdef]
      exact List.takeWhile_append_dropWhile _ _
    have hDne : D ≠ [] := by
      intro hD
      rw [hD, List.append_nil] at hFKD
      have : trimZeros F = [] := by
        rw [← hFKD, hK, takeWhile_zeros_replicate, trimZeros_replicate]
      rw [htrim] at this
      exact hF this
    rw [if_neg (by simpa using hDne)]
    rw [if_neg Bool.false_ne_true]
    have hDtrim : trimZeros D = D := trimZeros_eq_self_suffix hDne (hFKD.symm ▸ htrim)
    have hlen : D.length ≤ F.length := by
      have := congrArg List.length hFKD
      rw [List.length_append] at this
      omega
    unfold renderBody
    rw [if_pos (by push_cast; omega)]
    rw [hDtrim]
    have hzl : zerosL (-(((D.length : Int)) + 0 - (F.length : Int))).toNat
        = List.replicate K.length '0' := by
      unfold zerosL
      congr 1
      have := congrArg List.length hFKD
      rw [List.length_append] at this
      omega
    rw [hzl]
    have hKrep : K = List.replicate K.length '0' := by
      have h3 := takeWhile_zeros_replicate F
      rw [← hK] at h3
      exact h3
    rw [← hKrep, hFKD]
    rfl
  · obtain ⟨c, cs, hrep, hc, hcs, hz⟩ := natRepr_head_digit a
    have hD : List.dropWhile (fun c => c = '0') (natRepr a ++ F) = natRepr a ++ F := by
      rw [hrep, List.cons_append]
      exact dropWhile_cons_of_neg _ (by simpa using hz ha)
    show (if (List.dropWhile (fun c => c = '0') (natRepr a ++ F)).isEmpty = true
        then _ else _) = _
    rw [hD]
    rw [if_neg (by simp [hrep])]
    rw [if_neg Bool.false_ne_true]
    unfold renderBody
    have hlen : (natRepr a ++ F).length = (natRepr a).length + F.length := List.length_append _ _
    have hrlen : 1 ≤ (natRepr a).length := by
      rw [hrep]
      simp
    have hFlen : 1 ≤ F.length := by
      cases F with
      | nil => exact absurd rfl hF
      | cons x xs => simp
    rw [if_neg (by push_cast; omega)]
    rw [if_pos (by push_cast; omega)]
    have htonat : (((natRepr a ++ F).length : Int) + 0 - (F.length : Int)).toNat
        = (natRepr a).length := by
      push_cast
      omega
    rw [htonat, List.take_left, List.drop_left, htrim]
    rw [if_neg (by simpa using hF)]

/-- Decoding the written time token recovers the original microsecond
count, provided the remainder is nonzero. -/
theorem encodeTime_reparse {t : Nat} (ht : t % 1000000 ≠ 0) (hlt : t < U64MOD) :
    deserialize_time_s (f64Render (encodeTime t)) = .ok t := by
  set P := padLeftZeros 6 (natRepr (t % 1000000)) with hP
  have hrlen : (natRepr (t % 1000000)).length ≤ 6 :=
    natRepr_length_le (by have := Nat.mod_lt t (y := 1000000) (by norm_num); norm_num; omega)
      (by norm_num)
  have hPlen : P.length = 6 := by
    rw [hP]
    unfold padLeftZeros
    rw [List.length_append, List.length_replicate]
    omega
  have hPdig : P.all isDigitC = true := by
    rw [hP]
    unfold padLeftZeros
    rw [List.all_append, Bool.and_eq_true]
    constructor
    · rw [List.all_eq_true]
      intro c hx
      rw [List.eq_of_mem_replicate hx]
      decide
    · exact natRepr_all_digits _
  have hPnz : ∃ c ∈ P, c ≠ '0' := by
    obtain ⟨c, cs, hrep, hcdig, _, hz⟩ := natRepr_head_digit (t % 1000000)
    refine ⟨c, ?_, hz ht⟩
    rw [hP]
    unfold padLeftZeros
    rw [List.mem_append, hrep]
    right
    simp
  set F := trimZeros P with hFdef
  have hF : F ≠ [] := trimZeros_ne_nil hPnz
  have hFsub : ∀ x ∈ F, x ∈ P := fun x hx => mem_trimZeros hx
  have hFdig : F.all isDigitC = true := by
    rw [List.all_eq_true]
    intro x hx
    exact (List.all_eq_true.mp hPdig) x (hFsub x hx)
  have htrimF : trimZeros F = F := trimZeros_trimZeros P
  have henc : encodeTime t = natRepr (t / 1000000) ++ '.' :: F := by
    unfold encodeTime format_time
    exact trimZeros_append_dot _ _
  rw [henc, f64Render_fixed hF hFdig htrimF]
  have hsec : natOfDigits (natRepr (t / 1000000)) < U64MOD := by
    rw [natOfDigits_natRepr]
    unfold U64MOD at hlt ⊢
    omega
  have hFlen : F.length ≤ 6 := by
    have := trimZeros_length_le P
    rw [hPlen] at this
    exact hFdef ▸ this
  have hpad : padRight6 F = P := by
    unfold padRight6
    rw [List.take_of_length_le hFlen]
    have hdec := trimZeros_decomp P
    rw [hPlen] at hdec
    rw [← hFdef] at hdec
    exact hdec.symm
  have hmic : natOfDigits P = t % 1000000 := by
    rw [hP]
    unfold padLeftZeros
    rw [natOfDigits_replicate_zeros, natOfDigits_natRepr]
  rw [deserialize_time_s_digits (natRepr_ne_nil _) (natRepr_all_digits _) hF hFdig hsec ?fits]
  · rw [hpad, hmic, natOfDigits_natRepr]
    congr 1
    omega
  case fits =>
    rw [hpad, hmic, natOfDigits_natRepr]
    have : t / 1000000 * 1000000 + t % 1000000 = t := by omega
    omega

/- ----------------------------------------------------------------
   Parsing printed JSON back: step equations for the fueled parser.
   ---------------------------------------------------------------- -/

theorem parseValue_cons (f : Nat) (c : Char) (r : Str) (hc : isWsChar c = false) :
    parseValue (f + 1) (c :: r) =
      (if c = 'n' then
        if r.take 3 = ['u', 'l', 'l'] then some (Json.null, r.drop 3) else none
      else if c = 't' then
        if r.take 3 = ['r', 'u', 'e'] then some (Json.bool true, r.drop 3) else none
      else if c = 'f' then
        if r.take 4 = ['a', 'l', 's', 'e'] then some (Json.bool false, r.drop 4) else none
      else if c = '"' then (parseStringBody (r.length + 1) r).map (fun p => (Json.str p.1, p.2))
      else if c = '[' then (parseElemsFirst f (skipWs r)).map (fun p => (Json.arr p.1, p.2))
      else if c = '{' then (parseMembersFirst f (skipWs r)).map (fun p => (Json.obj p.1, p.2))
      else (lexNumber (c :: r)).map (fun p => (Json.num p.1, p.2))) := by
  unfold parseValue
  rw [show skipWs (c :: r) = c :: r from dropWhile_cons_of_neg r hc]

theorem parseValue_congr (f : Nat) {input input' : Str} (h : skipWs input = skipWs input') :
    parseValue (f + 1) input = parseValue (f + 1) input' := by
  unfold parseValue
  rw [h]

theorem parseElemsFirst_succ (f : Nat) (input : Str) :
    parseElemsFirst (f + 1) input =
      if input.head? = some ']' then some ([], input.tail)
      else
        match parseValue f input with
        | none => none
        | some (v, r1) =>
          match parseElemsRest f r1 with
          | none => none
          | some (vs, r2) => some (v :: vs, r2) := rfl

theorem parseElemsRest_comma (f : Nat) {input : Str} (R : Str)
    (h : skipWs input = ',' :: R) :
    parseElemsRest (f + 1) input =
      match parseValue f R with
      | none => none
      | some (v, r1) =>
        match parseElemsRest f r1 with
        | none => none
        | some (vs, r2) => some (v :: vs, r2) := by
  rw [parseElemsRest, h]
  rfl

theorem parseElemsRest_rbracket (f : Nat) {input : Str} (R : Str)
    (h : skipWs input = ']' :: R) :
    parseElemsRest (f + 1) input = some ([], R) := by
  rw [parseElemsRest, h]
  rfl

theorem parseMember_quote (f : Nat) {input : Str} (R : Str) (h : skipWs input = '"' :: R) :
    parseMember (f + 1) input =
      match parseStringBody (R.length + 1) R with
      | none => none
      | some (k, r1) =>
        match skipWs r1 with
        | ':' :: r2 =>
          match parseValue f r2 with
          | some (v, r3) => some ((k, v), r3)
          | none => none
        | _ => none := by
  rw [parseMember, h]
  rfl

theorem parseMembersFirst_succ (f : Nat) (input : Str) :
    parseMembersFirst (f + 1) input =
      if input.head? = some '}' then some ([], input.tail)
      else
        match parseMember f input with
        | none => none
        | some (m, r1) =>
          match parseMembersRest f r1 with
          | none => none
          | some (ms, r2) => some (m :: ms, r2) := rfl

theorem parseMembersRest_comma (f : Nat) {input : Str} (R : Str)
    (h : skipWs input = ',' :: R) :
    parseMembersRest (f + 1) input =
      match parseMember f R with
      | none => none
      | some (m, r1) =>
        match parseMembersRest f r1 with
        | none => none
        | some (ms, r2) => some (m :: ms, r2) := by
  rw [parseMembersRest, h]
  rfl

theorem parseMembersRest_rbrace (f : Nat) {input : Str} (R : Str)
    (h : skipWs input = '}' :: R) :
    parseMembersRest (f + 1) input = some ([], R) := by
  rw [parseMembersRest, h]
  rfl

/- ----------------------------------------------------------------
   Leaf values of the printed header and event lines parse back.
   ---------------------------------------------------------------- -/

theorem printStrJ_append (s t : Str) : printStrJ s ++ t = '"' :: (escapeStr s ++ '"' :: t) := by
  unfold printStrJ
  simp

theorem skipWs_printStrJ (s t : Str) :
    skipWs (printStrJ s ++ t) = printStrJ s ++ t := by
  rw [printStrJ_append]
  exact dropWhile_cons_of_neg _ (by decide)

theorem parseValue_str (f : Nat) (s rest : Str) :
    parseValue (f + 1) (printStrJ s ++ rest) = some (Json.str s, rest) := by
  rw [printStrJ_append]
  rw [parseValue_cons f '"' _ (by decide)]
  rw [if_neg (by decide), if_neg (by decide), if_neg (by decide), if_pos rfl]
  rw [parseStringBody_escape s ((escapeStr s ++ '"' :: rest).length + 1) rest
    (Nat.lt_succ_self _)]
  rfl

theorem parseValue_null (f : Nat) (rest : Str) :
    parseValue (f + 1) (['n', 'u', 'l', 'l'] ++ rest) = some (Json.null, rest) := by
  rw [show (['n', 'u', 'l', 'l'] : Str) ++ rest = 'n' :: ('u' :: 'l' :: 'l' :: rest) from rfl]
  rw [parseValue_cons f 'n' _ (by decide)]
  rw [if_pos rfl]
  rw [if_pos (show List.take 3 ('u' :: 'l' :: 'l' :: rest) = ['u', 'l', 'l'] from rfl)]
  rfl

theorem parseValue_num (f a : Nat) (rest : Str) (hstop : TokStop rest) :
    parseValue (f + 1) (natRepr a ++ rest) = some (Json.num (natRepr a), rest) := by
  obtain ⟨c, cs, hrep, hc, _, _⟩ := natRepr_head_digit a
  rw [hrep, List.cons_append]
  rw [parseValue_cons f c _ (not_ws_of_digit hc)]
  rw [if_neg (digit_ne_char hc (by decide)), if_neg (digit_ne_char hc (by decide)),
    if_neg (digit_ne_char hc (by decide)), if_neg (digit_ne_char hc (by decide)),
    if_neg (digit_ne_char hc (by decide)), if_neg (digit_ne_char hc (by decide))]
  rw [← List.cons_append, ← hrep]
  rw [lexNumber_natRepr a rest hstop (fun x hx => (hstop x hx).2.1)]
  rfl

theorem parseValue_num_frac (f a : Nat) (F rest : Str) (hF : F ≠ [])
    (hdig : F.all isDigitC = true) (hstop : TokStop rest) :
    parseValue (f + 1) ((natRepr a ++ '.' :: F) ++ rest)
      = some (Json.num (natRepr a ++ '.' :: F), rest) := by
  obtain ⟨c, cs, hrep, hc, _, _⟩ := natRepr_head_digit a
  rw [List.append_assoc, hrep, List.cons_append]
  rw [parseValue_cons f c _ (not_ws_of_digit hc)]
  rw [if_neg (digit_ne_char hc (by decide)), if_neg (digit_ne_char hc (by decide)),
    if_neg (digit_ne_char hc (by decide)), if_neg (digit_ne_char hc (by decide)),
    if_neg (digit_ne_char hc (by decide)), if_neg (digit_ne_char hc (by decide))]
  rw [← List.cons_append, ← hrep, ← List.append_assoc]
  rw [lexNumber_natRepr_frac a F rest hF hdig hstop]
  rfl

/- ----------------------------------------------------------------
   Printed object members and the fuel they need to parse back.
   ---------------------------------------------------------------- -/

/-- One printed member of the header object. -/
def printMemberH (m : Str × Json) : Str := printStrJ m.1 ++ ':' :: printEntryValue m.2

/-- The printed members after the first, each preceded by a comma. -/
def membersTail (ms : List (Str × Json)) : Str :=
  (ms.map (fun m => ',' :: printMemberH m)).flatten

/-- The printed env members after the first, each preceded by a comma. -/
def envTail (kvs : List (Str × Str)) : Str :=
  (kvs.map (fun kv => ',' :: printMemberFlat (kv.1, Json.str kv.2))).flatten

/-- Parser fuel sufficient for one printed member value. -/
def memFuel : Json → Nat
  | .obj ms => 2 * ms.length + 3
  | _ => 1

/-- Parser fuel sufficient for a printed member chain. -/
def msFuel : List (Str × Json) → Nat
  | [] => 1
  | m :: tl => memFuel m.2 + 2 + msFuel tl

/-- The value shapes the printed header can contain (no idle_time_limit:
the reprinted header always has it absent). -/
def HVal (v : Json) : Prop :=
  v = Json.null ∨ (∃ n, v = Json.num (natRepr n)) ∨ (∃ s, v = Json.str s) ∨
  (∃ kvs : List (Str × Str), v = Json.obj (kvs.map (fun kv => (kv.1, Json.str kv.2))))

theorem memFuel_pos (j : Json) : 1 ≤ memFuel j := by
  cases j <;> simp [memFuel]

theorem msFuel_pos (ms : List (Str × Json)) : 1 ≤ msFuel ms := by
  cases ms with
  | nil => simp [msFuel]
  | cons m tl =>
    have := memFuel_pos m.2
    simp [msFuel]
    omega

theorem skipWs_cons_of_neg {c : Char} (r : Str) (h : isWsChar c = false) :
    skipWs (c :: r) = c :: r := dropWhile_cons_of_neg r h

theorem sepComma_cons (x : Str) (xs : List Str) :
    sepComma (x :: xs) = x ++ (xs.map (fun s => ',' :: s)).flatten := by
  induction xs generalizing x with
  | nil => simp [sepComma]
  | cons y r ih =>
    rw [show sepComma (x :: y :: r) = x ++ ',' :: sepComma (y :: r) from rfl]
    rw [ih y]
    simp

theorem printMemberH_cons (k : Str) (j : Json) (X : Str) :
    printMemberH (k, j) ++ X
      = '"' :: (escapeStr k ++ '"' :: (':' :: (printEntryValue j ++ X))) := by
  show (printStrJ k ++ ':' :: printEntryValue j) ++ X = _
  rw [List.append_assoc, List.cons_append, printStrJ_append]

theorem printMemberFlat_cons (k : Str) (j : Json) (X : Str) :
    printMemberFlat (k, j) ++ X
      = '"' :: (escapeStr k ++ '"' :: (':' :: (printFlat j ++ X))) := by
  show (printStrJ k ++ ':' :: printFlat j) ++ X = _
  rw [List.append_assoc, List.cons_append, printStrJ_append]

theorem membersTail_shape (m : Str × Json) (tl : List (Str × Json)) (X : Str) :
    membersTail (m :: tl) ++ X = ',' :: (printMemberH m ++ (membersTail tl ++ X)) := by
  unfold membersTail
  rw [List.map_cons, List.flatten_cons]
  simp

theorem envTail_shape (kv : Str × Str) (tl : List (Str × Str)) (X : Str) :
    envTail (kv :: tl) ++ X
      = ',' :: (printMemberFlat (kv.1, Json.str kv.2) ++ (envTail tl ++ X)) := by
  unfold envTail
  rw [List.map_cons, List.flatten_cons]
  simp

theorem membersTail_stop (tl : List (Str × Json)) (rest : Str) :
    TokStop (membersTail tl ++ '}' :: rest) := by
  cases tl with
  | nil =>
    intro c hc
    have hc2 : some '}' = some c := hc
    cases Option.some.inj hc2
    exact ⟨by decide, by decide, by decide, by decide⟩
  | cons m tl2 =>
    intro c hc
    rw [membersTail_shape] at hc
    have hc2 : some ',' = some c := hc
    cases Option.some.inj hc2
    exact ⟨by decide, by decide, by decide, by decide⟩

/- ----------------------------------------------------------------
   Printed members parse back (env level, then header level).
   ---------------------------------------------------------------- -/

theorem parseMember_str (f : Nat) (k v rest : Str) :
    parseMember (f + 2) (printMemberFlat (k, Json.str v) ++ rest)
      = some ((k, Json.str v), rest) := by
  rw [printMemberFlat_cons]
  rw [parseMember_quote (f + 1)
    (escapeStr k ++ '"' :: (':' :: (printFlat (Json.str v) ++ rest)))
    (skipWs_cons_of_neg _ (by decide))]
  rw [parseStringBody_escape k _ _ (Nat.lt_succ_self _)]
  show (match skipWs (':' :: (printFlat (Json.str v) ++ rest)) with
    | ':' :: r2 =>
      match parseValue (f + 1) r2 with
      | some (v2, r3) => some ((k, v2), r3)
      | none => none
    | _ => none) = some ((k, Json.str v), rest)
  rw [skipWs_cons_of_neg _ (by decide)]
  show (match parseValue (f + 1) (printStrJ v ++ rest) with
    | some (v2, r3) => some ((k, v2), r3)
    | none => none) = some ((k, Json.str v), rest)
  rw [parseValue_str f v rest]

theorem parseMembersRest_env : ∀ (kvs : List (Str × Str)) (f : Nat) (rest : Str),
    2 * kvs.length + 1 ≤ f →
    parseMembersRest f (envTail kvs ++ '}' :: rest)
      = some (kvs.map (fun kv => (kv.1, Json.str kv.2)), rest) := by
  intro kvs
  induction kvs with
  | nil =>
    intro f rest hf
    obtain ⟨g, rfl⟩ : ∃ g, f = g + 1 := ⟨f - 1, by omega⟩
    exact parseMembersRest_rbrace g rest (by
      show skipWs ('}' :: rest) = '}' :: rest
      exact skipWs_cons_of_neg _ (by decide))
  | cons kv tl ih =>
    intro f rest hf
    simp only [List.length_cons] at hf
    obtain ⟨g, rfl⟩ : ∃ g, f = g + 1 := ⟨f - 1, by omega⟩
    rw [envTail_shape]
    rw [parseMembersRest_comma g _ (skipWs_cons_of_neg _ (by decide))]
    obtain ⟨g2, rfl⟩ : ∃ g2, g = g2 + 2 := ⟨g - 2, by omega⟩
    rw [parseMember_str g2 kv.1 kv.2 (envTail tl ++ '}' :: rest)]
    show (match parseMembersRest (g2 + 2) (envTail tl ++ '}' :: rest) with
      | none => none
      | some (ms, r2) => some ((kv.1, Json.str kv.2) :: ms, r2))
      = some ((kv :: tl).map (fun kv => (kv.1, Json.str kv.2)), rest)
    rw [ih (g2 + 2) rest (by omega)]
    rfl

theorem parseValue_env (kvs : List (Str × Str)) (f : Nat) (rest : Str)
    (hf : 2 * kvs.length + 3 ≤ f) :
    parseValue f ('{' :: (sepComma ((kvs.map (fun kv => (kv.1, Json.str kv.2))).map
        printMemberFlat) ++ '}' :: rest))
      = some (Json.obj (kvs.map (fun kv => (kv.1, Json.str kv.2))), rest) := by
  obtain ⟨g, rfl⟩ : ∃ g, f = g + 1 := ⟨f - 1, by omega⟩
  rw [parseValue_cons g '{' _ (by decide)]
  rw [if_neg (by decide), if_neg (by decide), if_neg (by decide), if_neg (by decide),
    if_neg (by decide), if_pos rfl]
  cases kvs with
  | nil =>
    show (parseMembersFirst g (skipWs ('}' :: rest))).map _ = _
    obtain ⟨g2, rfl⟩ : ∃ g2, g = g2 + 1 := ⟨g - 1, by omega⟩
    rw [skipWs_cons_of_neg _ (by decide)]
    rw [parseMembersFirst_succ]
    rw [if_pos (show ('}' :: rest : Str).head? = some '}' from rfl)]
    rfl
  | cons kv tl =>
    have hsep : sepComma (((kv :: tl).map (fun kv => (kv.1, Json.str kv.2))).map
          printMemberFlat)
        = printMemberFlat (kv.1, Json.str kv.2) ++ envTail tl := by
      rw [List.map_cons, List.map_cons, sepComma_cons]
      unfold envTail
      rw [List.map_map, List.map_map]
      rfl
    rw [hsep, List.append_assoc]
    rw [printMemberFlat_cons]
    rw [show skipWs ('"' :: (escapeStr kv.1 ++ '"' :: (':' :: (printFlat (Json.str kv.2)
        ++ (envTail tl ++ '}' :: rest)))))
      = '"' :: (escapeStr kv.1 ++ '"' :: (':' :: (printFlat (Json.str kv.2)
        ++ (envTail tl ++ '}' :: rest)))) from skipWs_cons_of_neg _ (by decide)]
    simp only [List.length_cons] at hf
    obtain ⟨g2, rfl⟩ : ∃ g2, g = g2 + 1 := ⟨g - 1, by omega⟩
    rw [parseMembersFirst_succ]
    rw [if_neg (by intro hcon; exact absurd (Option.some.inj hcon) (by decide))]
    rw [← printMemberFlat_cons]
    obtain ⟨g3, rfl⟩ : ∃ g3, g2 = g3 + 2 := ⟨g2 - 2, by omega⟩
    rw [parseMember_str g3 kv.1 kv.2 (envTail tl ++ '}' :: rest)]
    show (match parseMembersRest (g3 + 2) (envTail tl ++ '}' :: rest) with
      | none => none
      | some (ms, r2) => some ((kv.1, Json.str kv.2) :: ms, r2)).map
        (fun p : List (Str × Json) × Str => (Json.obj p.1, p.2)) = _
    rw [parseMembersRest_env tl (g3 + 2) rest (by omega)]
    rfl

theorem parseMember_printed (m : Str × Json) (hm : HVal m.2) (f : Nat) (rest : Str)
    (hstop : TokStop rest) (hf : memFuel m.2 < f) :
    parseMember f (printMemberH m ++ rest) = some (m, rest) := by
  obtain ⟨k, j⟩ := m
  have hm2 : HVal j := hm
  have hf2 : memFuel j < f := hf
  have h1 := memFuel_pos j
  obtain ⟨g, rfl⟩ : ∃ g, f = g + 1 := ⟨f - 1, by omega⟩
  rw [printMemberH_cons]
  rw [parseMember_quote g
    (escapeStr k ++ '"' :: (':' :: (printEntryValue j ++ rest)))
    (skipWs_cons_of_neg _ (by decide))]
  rw [parseStringBody_escape k _ _ (Nat.lt_succ_self _)]
  show (match skipWs (':' :: (printEntryValue j ++ rest)) with
    | ':' :: r2 =>
      match parseValue g r2 with
      | some (v2, r3) => some ((k, v2), r3)
      | none => none
    | _ => none) = some ((k, j), rest)
  rw [skipWs_cons_of_neg _ (by decide)]
  show (match parseValue g (printEntryValue j ++ rest) with
    | some (v2, r3) => some ((k, v2), r3)
    | none => none) = some ((k, j), rest)
  rcases hm2 with h0 | ⟨n, h0⟩ | ⟨s, h0⟩ | ⟨kvs, h0⟩
  · subst h0
    obtain ⟨g2, rfl⟩ : ∃ g2, g = g2 + 1 := ⟨g - 1, by omega⟩
    rw [show printEntryValue Json.null = (['n', 'u', 'l', 'l'] : Str) from rfl]
    rw [parseValue_null g2 rest]
  · subst h0
    obtain ⟨g2, rfl⟩ : ∃ g2, g = g2 + 1 := ⟨g - 1, by omega⟩
    rw [show printEntryValue (Json.num (natRepr n)) = natRepr n from rfl]
    rw [parseValue_num g2 n rest hstop]
  · subst h0
    obtain ⟨g2, rfl⟩ : ∃ g2, g = g2 + 1 := ⟨g - 1, by omega⟩
    rw [show printEntryValue (Json.str s) = printStrJ s from rfl]
    rw [parseValue_str g2 s rest]
  · subst h0
    have hpe : printEntryValue (Json.obj (kvs.map (fun kv => (kv.1, Json.str kv.2)))) ++ rest
        = '{' :: (sepComma ((kvs.map (fun kv => (kv.1, Json.str kv.2))).map printMemberFlat)
          ++ '}' :: rest) := by
      show ('{' :: sepComma _ ++ ['}']) ++ rest = _
      simp
    rw [hpe]
    have hb : 2 * kvs.length + 3 ≤ g := by
      have hmf : memFuel (Json.obj (kvs.map (fun kv => (kv.1, Json.str kv.2))))
          = 2 * kvs.length + 3 := by
        show 2 * (kvs.map (fun kv => (kv.1, Json.str kv.2))).length + 3 = _
        rw [List.length_map]
      omega
    rw [parseValue_env kvs g rest hb]

theorem parseMembersRest_printed : ∀ (ms : List (Str × Json)), (∀ m ∈ ms, HVal m.2) →
    ∀ (f : Nat) (rest : Str), msFuel ms ≤ f →
    parseMembersRest f (membersTail ms ++ '}' :: rest) = some (ms, rest) := by
  intro ms
  induction ms with
  | nil =>
    intro _ f rest hf
    have h1 : msFuel ([] : List (Str × Json)) = 1 := rfl
    rw [h1] at hf
    obtain ⟨g, rfl⟩ : ∃ g, f = g + 1 := ⟨f - 1, by omega⟩
    exact parseMembersRest_rbrace g rest (by
      show skipWs ('}' :: rest) = '}' :: rest
      exact skipWs_cons_of_neg _ (by decide))
  | cons m tl ih =>
    intro hH f rest hf
    have hfe : msFuel (m :: tl) = memFuel m.2 + 2 + msFuel tl := rfl
    rw [hfe] at hf
    have htl := msFuel_pos tl
    have hm1 := memFuel_pos m.2
    obtain ⟨g, rfl⟩ : ∃ g, f = g + 1 := ⟨f - 1, by omega⟩
    rw [membersTail_shape]
    rw [parseMembersRest_comma g _ (skipWs_cons_of_neg _ (by decide))]
    rw [parseMember_printed m (hH m (List.mem_cons_self m tl)) g
      (membersTail tl ++ '}' :: rest) (membersTail_stop tl rest) (by omega)]
    show (match parseMembersRest g (membersTail tl ++ '}' :: rest) with
      | none => none
      | some (ms2, r2) => some (m :: ms2, r2)) = some (m :: tl, rest)
    rw [ih (fun x hx => hH x (List.mem_cons_of_mem m hx)) g rest (by omega)]

theorem parseValue_headerObj (ms : List (Str × Json)) (hms : ∀ m ∈ ms, HVal m.2)
    (hne : ms ≠ []) (f : Nat) (rest : Str) (hf : msFuel ms + 2 ≤ f) :
    parseValue f ('{' :: (sepComma (ms.map printMemberH) ++ '}' :: rest))
      = some (Json.obj ms, rest) := by
  obtain ⟨g, rfl⟩ : ∃ g, f = g + 1 := ⟨f - 1, by omega⟩
  rw [parseValue_cons g '{' _ (by decide)]
  rw [if_neg (by decide), if_neg (by decide), if_neg (by decide), if_neg (by decide),
    if_neg (by decide), if_pos rfl]
  cases ms with
  | nil => exact absurd rfl hne
  | cons m tl =>
    have hsep : sepComma ((m :: tl).map printMemberH) = printMemberH m ++ membersTail tl := by
      rw [List.map_cons, sepComma_cons]
      unfold membersTail
      rw [List.map_map]
      rfl
    rw [hsep, List.append_assoc]
    obtain ⟨k, j⟩ := m
    rw [printMemberH_cons]
    rw [show skipWs ('"' :: (escapeStr k ++ '"' :: (':' :: (printEntryValue j
        ++ (membersTail tl ++ '}' :: rest)))))
      = '"' :: (escapeStr k ++ '"' :: (':' :: (printEntryValue j
        ++ (membersTail tl ++ '}' :: rest)))) from skipWs_cons_of_neg _ (by decide)]
    have hfe : msFuel ((k, j) :: tl) = memFuel j + 2 + msFuel tl := rfl
    rw [hfe] at hf
    have htl := msFuel_pos tl
    have hm1 := memFuel_pos j
    obtain ⟨g2, rfl⟩ : ∃ g2, g = g2 + 1 := ⟨g - 1, by omega⟩
    rw [parseMembersFirst_succ]
    rw [if_neg (by intro hcon; exact absurd (Option.some.inj hcon) (by decide))]
    rw [← printMemberH_cons]
    rw [parseMember_printed (k, j) (hms (k, j) (List.mem_cons_self _ tl)) g2
      (membersTail tl ++ '}' :: rest) (membersTail_stop tl rest)
      (by show memFuel j < g2; omega)]
    show (match parseMembersRest g2 (membersTail tl ++ '}' :: rest) with
      | none => none
      | some (ms2, r2) => some ((k, j) :: ms2, r2)).map
        (fun p : List (Str × Json) × Str => (Json.obj p.1, p.2)) = _
    rw [parseMembersRest_printed tl (fun x hx => hms x (List.mem_cons_of_mem _ hx)) g2
      rest (by omega)]
    rfl

/- ----------------------------------------------------------------
   The canonical parser fuel of `parseJsonLine` suffices for the header.
   ---------------------------------------------------------------- -/

theorem printStrJ_length (s : Str) : 2 ≤ (printStrJ s).length := by
  have h1 : ('"' :: escapeStr s ++ ['"'] : Str).length = (escapeStr s).length + 2 := by
    simp
  unfold printStrJ
  omega

theorem sepComma_length : ∀ xs : List Str, xs.length ≤ (sepComma xs).length + 1
  | [] => by simp [sepComma]
  | [x] => by simp [sepComma]
  | x :: y :: r => by
    have ih := sepComma_length (y :: r)
    rw [show sepComma (x :: y :: r) = x ++ ',' :: sepComma (y :: r) from rfl]
    simp only [List.length_append, List.length_cons]
    simp only [List.length_cons] at ih
    omega

theorem printMemberH_length (m : Str × Json) :
    (printEntryValue m.2).length + 3 ≤ (printMemberH m).length := by
  unfold printMemberH
  rw [List.length_append, List.length_cons]
  have := printStrJ_length m.1
  omega

theorem memFuel_le {v : Json} (hv : HVal v) :
    memFuel v ≤ 2 * (printEntryValue v).length + 1 := by
  rcases hv with h0 | ⟨n, h0⟩ | ⟨s, h0⟩ | ⟨kvs, h0⟩ <;> subst h0
  · show (1 : Nat) ≤ _
    omega
  · show (1 : Nat) ≤ _
    omega
  · show (1 : Nat) ≤ _
    omega
  · show 2 * (kvs.map (fun kv => (kv.1, Json.str kv.2))).length + 3 ≤ _
    have h1 := sepComma_length (((kvs.map (fun kv => (kv.1, Json.str kv.2))).map
      printMemberFlat))
    rw [List.length_map] at h1
    have h2 : (printEntryValue (Json.obj (kvs.map (fun kv => (kv.1, Json.str kv.2))))).length
        = (sepComma ((kvs.map (fun kv => (kv.1, Json.str kv.2))).map printMemberFlat)).length
          + 2 := by
      show ('{' :: (sepComma _ ++ ['}'])).length = _
      rw [List.length_cons, List.length_append]
      simp
    omega

theorem msFuel_le : ∀ (ms : List (Str × Json)), (∀ m ∈ ms, HVal m.2) →
    msFuel ms ≤ 2 * (sepComma (ms.map printMemberH)).length + 1
  | [], _ => by simp [msFuel, sepComma]
  | [m], hH => by
    have hm := memFuel_le (hH m (List.mem_cons_self m []))
    have hl := printMemberH_length m
    rw [show msFuel [m] = memFuel m.2 + 3 from rfl]
    rw [show sepComma ([m].map printMemberH) = printMemberH m from rfl]
    omega
  | m :: m2 :: tl, hH => by
    have ih := msFuel_le (m2 :: tl) (fun x hx => hH x (List.mem_cons_of_mem m hx))
    have hm := memFuel_le (hH m (List.mem_cons_self m (m2 :: tl)))
    have hl := printMemberH_length m
    rw [show msFuel (m :: m2 :: tl) = memFuel m.2 + 2 + msFuel (m2 :: tl) from rfl]
    rw [show sepComma ((m :: m2 :: tl).map printMemberH)
      = printMemberH m ++ ',' :: sepComma ((m2 :: tl).map printMemberH) from rfl]
    rw [List.length_append, List.length_cons]
    omega

theorem serializeV2HeaderEntries_ne_nil (h : V2Header) : serializeV2HeaderEntries h ≠ [] := by
  intro hcon
  have hlen := congrArg List.length hcon
  rw [serializeV2HeaderEntries] at hlen
  rw [List.length_append, List.length_append, List.length_append, List.length_append] at hlen
  simp at hlen

theorem printHeaderLine_eq (h : V2Header) :
    printHeaderLine h
      = '{' :: (sepComma ((serializeV2HeaderEntries h).map printMemberH) ++ '}' :: []) := rfl

theorem parseJsonLine_headerLine (h : V2Header)
    (hms : ∀ m ∈ serializeV2HeaderEntries h, HVal m.2) :
    parseJsonLine (printHeaderLine h) = some (Json.obj (serializeV2HeaderEntries h)) := by
  unfold parseJsonLine
  rw [printHeaderLine_eq]
  have hL : ('{' :: (sepComma ((serializeV2HeaderEntries h).map printMemberH)
      ++ '}' :: [])).length
      = (sepComma ((serializeV2HeaderEntries h).map printMemberH)).length + 2 := by
    rw [List.length_cons, List.length_append]
    simp
  have hfuel : msFuel (serializeV2HeaderEntries h) + 2
      ≤ 2 * ('{' :: (sepComma ((serializeV2HeaderEntries h).map printMemberH)
        ++ '}' :: [])).length + 4 := by
    have h1 := msFuel_le (serializeV2HeaderEntries h) hms
    omega
  rw [parseValue_headerObj (serializeV2HeaderEntries h) hms
    (serializeV2HeaderEntries_ne_nil h) _ [] hfuel]
  rfl

theorem entries_HVal (h : V2Header) (hts : h.timestamp = none)
    (hidle : h.idle_time_limit = none) :
    ∀ m ∈ serializeV2HeaderEntries h, HVal m.2 := by
  intro m hm
  have hopt : ∀ (o : Option Str) (key : Str),
      m ∈ (match o with
        | none => ([] : List (Str × Json))
        | some s => [(key, Json.str s)]) → HVal m.2 := by
    intro o key hmem
    cases o with
    | none => exact absurd hmem (List.not_mem_nil m)
    | some s =>
      dsimp only at hmem
      rw [List.mem_singleton] at hmem
      subst hmem
      right; right; left
      exact ⟨s, rfl⟩
  have henv : ∀ (o : Option (List (Str × Str))),
      m ∈ (match o with
        | none => ([] : List (Str × Json))
        | some e =>
          if e.isEmpty then []
          else [(kEnv, Json.obj (e.map (fun kv : Str × Str => (kv.1, Json.str kv.2))))]) →
      HVal m.2 := by
    intro o hmem
    cases o with
    | none => exact absurd hmem (List.not_mem_nil m)
    | some e =>
      dsimp only at hmem
      by_cases he : e.isEmpty
      · rw [if_pos he] at hmem
        exact absurd hmem (List.not_mem_nil m)
      · rw [if_neg he] at hmem
        rw [List.mem_singleton] at hmem
        subst hmem
        right; right; right
        exact ⟨e, rfl⟩
  unfold serializeV2HeaderEntries at hm
  rw [hts, hidle] at hm
  rw [List.append_nil] at hm
  rw [List.mem_append] at hm
  rcases hm with hm | hm
  · rw [List.mem_append] at hm
    rcases hm with hm | hm
    · rw [List.mem_append] at hm
      rcases hm with hm | hm
      · simp only [List.mem_cons, List.not_mem_nil, or_false] at hm
        rcases hm with h1 | h2 | h3 | h4
        · subst h1
          right; left
          exact ⟨h.version, rfl⟩
        · subst h2
          right; left
          exact ⟨h.width, rfl⟩
        · subst h3
          right; left
          exact ⟨h.height, rfl⟩
        · subst h4
          left
          rfl
      · exact hopt h.command kCommand hm
    · exact hopt h.title kTitle hm
  · exact henv h.env hm

/- ----------------------------------------------------------------
   Decoding the reprinted header entries.
   ---------------------------------------------------------------- -/

theorem decodeUInt_natRepr {b n : Nat} (h : n < b) :
    decodeUInt b (Json.num (natRepr n)) = some n := by
  show (if (natRepr n).isEmpty then none
    else if (natRepr n).all isDigitC then
      if natOfDigits (natRepr n) < b then some (natOfDigits (natRepr n)) else none
    else none) = some n
  rw [if_neg (by simpa using natRepr_ne_nil n)]
  rw [if_pos (natRepr_all_digits n)]
  rw [natOfDigits_natRepr]
  rw [if_pos h]

theorem v2Fold_one (sl sl2 : V2Slots) (k : Str) (j : Json) (rest : List (Str × Json))
    (h : v2SetField sl k j = some sl2) :
    v2FoldMembers sl ((k, j) :: rest) = v2FoldMembers sl2 rest := by
  show (match v2SetField sl k j with
    | none => none
    | some sl3 => v2FoldMembers sl3 rest) = _
  rw [h]

theorem decodeEnvMembers_str : ∀ (e acc : List (Str × Str)),
    ∃ out, decodeEnvMembers acc (e.map (fun kv : Str × Str => (kv.1, Json.str kv.2)))
      = some out
  | [], acc => ⟨acc, rfl⟩
  | kv :: tl, acc => by
    obtain ⟨out, hout⟩ := decodeEnvMembers_str tl (envInsert acc kv.1 kv.2)
    refine ⟨out, ?_⟩
    rw [List.map_cons]
    show decodeEnvMembers (envInsert acc kv.1 kv.2)
      (tl.map (fun kv : Str × Str => (kv.1, Json.str kv.2))) = some out
    exact hout

theorem v2SetField_cmd (sl : V2Slots) (s : Str) (h : sl.command = none) :
    v2SetField sl kCommand (Json.str s) = some { sl with command := some (some s) } := by
  unfold v2SetField
  rw [if_neg (by decide), if_neg (by decide), if_neg (by decide), if_neg (by decide),
    if_neg (by decide), if_pos rfl]
  rw [h]
  rfl

theorem v2SetField_ttl (sl : V2Slots) (s : Str) (h : sl.title = none) :
    v2SetField sl kTitle (Json.str s) = some { sl with title := some (some s) } := by
  unfold v2SetField
  rw [if_neg (by decide), if_neg (by decide), if_neg (by decide), if_neg (by decide),
    if_neg (by decide), if_neg (by decide), if_pos rfl]
  rw [h]
  rfl

theorem v2SetField_env (sl : V2Slots) (e out : List (Str × Str)) (h : sl.env = none)
    (hout : decodeEnvMembers [] (e.map (fun kv : Str × Str => (kv.1, Json.str kv.2)))
      = some out) :
    v2SetField sl kEnv (Json.obj (e.map (fun kv : Str × Str => (kv.1, Json.str kv.2))))
      = some { sl with env := some (some out) } := by
  unfold v2SetField
  rw [if_neg (by decide), if_neg (by decide), if_neg (by decide), if_neg (by decide),
    if_neg (by decide), if_neg (by decide), if_neg (by decide), if_pos rfl]
  rw [h]
  show ((decodeEnvMembers [] (e.map (fun kv : Str × Str => (kv.1, Json.str kv.2)))).map
    some).map (fun n => { sl with env := some n }) = _
  rw [hout]
  rfl

theorem v2Fold_tail (sl : V2Slots) (cmd ttl : Option Str)
    (env : Option (List (Str × Str)))
    (hcmd : sl.command = none) (httl : sl.title = none) (henv : sl.env = none) :
    ∃ sl2, v2FoldMembers sl
        ((match cmd with | none => [] | some s => [(kCommand, Json.str s)])
          ++ ((match ttl with | none => [] | some s => [(kTitle, Json.str s)])
            ++ (match env with
              | none => []
              | some e =>
                if e.isEmpty then []
                else [(kEnv,
                  Json.obj (e.map (fun kv : Str × Str => (kv.1, Json.str kv.2))))])))
        = some sl2
      ∧ sl2.version = sl.version ∧ sl2.width = sl.width ∧ sl2.height = sl.height
      ∧ sl2.timestamp = sl.timestamp := by
  have henvfold : ∀ (sl3 : V2Slots), sl3.env = none →
      ∃ sl4, v2FoldMembers sl3
          (match env with
            | none => []
            | some e =>
              if e.isEmpty then []
              else [(kEnv, Json.obj (e.map (fun kv : Str × Str => (kv.1, Json.str kv.2))))])
          = some sl4
        ∧ sl4.version = sl3.version ∧ sl4.width = sl3.width ∧ sl4.height = sl3.height
        ∧ sl4.timestamp = sl3.timestamp := by
    intro sl3 h3
    cases env with
    | none => exact ⟨sl3, rfl, rfl, rfl, rfl, rfl⟩
    | some e =>
      dsimp only
      by_cases he : e.isEmpty
      · rw [if_pos he]
        exact ⟨sl3, rfl, rfl, rfl, rfl, rfl⟩
      · rw [if_neg he]
        obtain ⟨out, hout⟩ := decodeEnvMembers_str e []
        refine ⟨{ sl3 with env := some (some out) }, ?_, rfl, rfl, rfl, rfl⟩
        rw [v2Fold_one sl3 _ kEnv _ [] (v2SetField_env sl3 e out h3 hout)]
        rfl
  have httlfold : ∀ (sl3 : V2Slots), sl3.title = none → sl3.env = none →
      ∃ sl4, v2FoldMembers sl3
          ((match ttl with | none => [] | some s => [(kTitle, Json.str s)])
            ++ (match env with
              | none => []
              | some e =>
                if e.isEmpty then []
                else [(kEnv,
                  Json.obj (e.map (fun kv : Str × Str => (kv.1, Json.str kv.2))))]))
          = some sl4
        ∧ sl4.version = sl3.version ∧ sl4.width = sl3.width ∧ sl4.height = sl3.height
        ∧ sl4.timestamp = sl3.timestamp := by
    intro sl3 h3 h4
    cases ttl with
    | none =>
      dsimp only
      rw [List.nil_append]
      exact henvfold sl3 h4
    | some s =>
      dsimp only
      rw [List.cons_append, List.nil_append]
      rw [v2Fold_one sl3 _ kTitle _ _ (v2SetField_ttl sl3 s h3)]
      obtain ⟨sl4, hf, hv, hw, hh, hts⟩ := henvfold { sl3 with title := some (some s) } h4
      exact ⟨sl4, hf, hv, hw, hh, hts⟩
  cases cmd with
  | none =>
    dsimp only
    rw [List.nil_append]
    exact httlfold sl httl henv
  | some s =>
    dsimp only
    rw [List.cons_append, List.nil_append]
    rw [v2Fold_one sl _ kCommand _ _ (v2SetField_cmd sl s hcmd)]
    obtain ⟨sl4, hf, hv, hw, hh, hts⟩ := httlfold { sl with command := some (some s) } httl henv
    exact ⟨sl4, hf, hv, hw, hh, hts⟩

theorem decodeV2Header_printed (w ht : Nat) (cmd ttl : Option Str)
    (env : Option (List (Str × Str))) (hw : w < 65536) (hh : ht < 65536) :
    ∃ h2, decodeV2Header
        (Json.obj (serializeV2HeaderEntries ⟨2, w, ht, none, none, cmd, ttl, env⟩))
        = some h2
      ∧ h2.version = 2 ∧ h2.width = w ∧ h2.height = ht := by
  have hents : serializeV2HeaderEntries ⟨2, w, ht, none, none, cmd, ttl, env⟩
      = (kVersion, Json.num (natRepr 2)) :: (kWidth, Json.num (natRepr w))
        :: (kHeight, Json.num (natRepr ht)) :: (kTimestamp, Json.null)
        :: ((match cmd with | none => [] | some s => [(kCommand, Json.str s)])
          ++ ((match ttl with | none => [] | some s => [(kTitle, Json.str s)])
            ++ (match env with
              | none => []
              | some e =>
                if e.isEmpty then []
                else [(kEnv,
                  Json.obj (e.map (fun kv : Str × Str => (kv.1, Json.str kv.2))))]))) := by
    unfold serializeV2HeaderEntries
    simp [List.append_assoc]
  have s1 : v2SetField emptyV2Slots kVersion (Json.num (natRepr 2))
      = some ⟨some 2, none, none, none, none, none, none, none⟩ := by
    unfold v2SetField
    rw [if_pos rfl]
    show (decodeUInt 256 (Json.num (natRepr 2))).map _ = _
    rw [decodeUInt_natRepr (by norm_num)]
    rfl
  have s2 : v2SetField ⟨some 2, none, none, none, none, none, none, none⟩ kWidth
        (Json.num (natRepr w))
      = some ⟨some 2, some w, none, none, none, none, none, none⟩ := by
    unfold v2SetField
    rw [if_neg (by decide), if_pos rfl]
    show (decodeUInt 65536 (Json.num (natRepr w))).map _ = _
    rw [decodeUInt_natRepr hw]
    rfl
  have s3 : v2SetField ⟨some 2, some w, none, none, none, none, none, none⟩ kHeight
        (Json.num (natRepr ht))
      = some ⟨some 2, some w, some ht, none, none, none, none, none⟩ := by
    unfold v2SetField
    rw [if_neg (by decide), if_neg (by decide), if_pos rfl]
    show (decodeUInt 65536 (Json.num (natRepr ht))).map _ = _
    rw [decodeUInt_natRepr hh]
    rfl
  have s4 : v2SetField ⟨some 2, some w, some ht, none, none, none, none, none⟩ kTimestamp
        Json.null
      = some ⟨some 2, some w, some ht, some none, none, none, none, none⟩ := by
    unfold v2SetField
    rw [if_neg (by decide), if_neg (by decide), if_neg (by decide), if_pos rfl]
    rfl
  obtain ⟨sl2, hfold, hv, hw2, hh2, _⟩ := v2Fold_tail
    ⟨some 2, some w, some ht, some none, none, none, none, none⟩ cmd ttl env rfl rfl rfl
  have hv2 : sl2.version = some 2 := hv
  have hw3 : sl2.width = some w := hw2
  have hh3 : sl2.height = some ht := hh2
  refine ⟨⟨2, w, ht, sl2.timestamp.getD none, sl2.idle_time_limit.getD none,
    sl2.command.getD none, sl2.title.getD none, sl2.env.getD none⟩, ?_, rfl, rfl, rfl⟩
  show (v2FoldMembers emptyV2Slots
    (serializeV2HeaderEntries ⟨2, w, ht, none, none, cmd, ttl, env⟩)).bind v2Finish = _
  rw [hents]
  rw [v2Fold_one _ _ _ _ _ s1, v2Fold_one _ _ _ _ _ s2, v2Fold_one _ _ _ _ _ s3,
    v2Fold_one _ _ _ _ _ s4]
  rw [hfold]
  show v2Finish sl2 = _
  unfold v2Finish
  rw [hv2, hw3, hh3]

/- ----------------------------------------------------------------
   Inversion: what a successful decode guarantees.
   ---------------------------------------------------------------- -/

theorem decodeUInt_lt {b n : Nat} {j : Json} (h : decodeUInt b j = some n) : n < b := by
  unfold decodeUInt at h
  split at h
  · split_ifs at h with h1 h2 h3
    simp only [Option.some.injEq] at h
    omega
  · exact absurd h (by simp)

theorem deserialize_time_s_lt {s : Str} {n : Nat} (h : deserialize_time_s s = .ok n) :
    n < U64MOD := by
  unfold deserialize_time_s at h
  split at h
  · split at h
    · exact absurd h (by simp)
    · split at h
      · exact absurd h (by simp)
      · simp only [Except.ok.injEq] at h
        subst h
        exact Nat.mod_lt _ (by unfold U64MOD; positivity)
  · exact absurd h (by simp)

theorem exceptBind_ok {ε α β : Type} (a : α) (f : α → Except ε β) :
    (Except.ok a : Except ε α) >>= f = f a := rfl

theorem exceptBind_error {ε α β : Type} (er : ε) (f : α → Except ε β) :
    (Except.error er : Except ε α) >>= f = .error er := rfl

theorem decodeTimeElem_lt {j : Json} {t : Nat} (h : decodeTimeElem j = .ok t) :
    t < U64MOD :=
  deserialize_time_s_lt h

theorem evSetField_time {sl sl2 : EvSlots} {k : Str} {j : Json}
    (h : evSetField sl k j = .ok sl2) :
    sl2.time = sl.time ∨ ∃ t, sl2.time = some t ∧ t < U64MOD := by
  unfold evSetField at h
  split_ifs at h with h1 h2 h3
  · revert h
    cases hslt : sl.time with
    | some t0 =>
      intro h
      exact absurd h (by simp)
    | none =>
      intro h
      cases hdt : decodeTimeElem j with
      | error er =>
        rw [hdt] at h
        exact absurd h (by simp [Except.map])
      | ok t1 =>
        rw [hdt] at h
        have h2 : (Except.ok { sl with time := some t1 } : Except DecErr EvSlots)
            = .ok sl2 := h
        cases Except.ok.inj h2
        right
        exact ⟨t1, rfl, decodeTimeElem_lt hdt⟩
  · revert h
    cases hslc : sl.code with
    | some c0 =>
      intro h
      exact absurd h (by simp)
    | none =>
      intro h
      cases hdc : decodeCodeElem j with
      | error er =>
        rw [hdc] at h
        exact absurd h (by simp [Except.map])
      | ok c1 =>
        rw [hdc] at h
        have h2 : (Except.ok { sl with code := some c1 } : Except DecErr EvSlots)
            = .ok sl2 := h
        cases Except.ok.inj h2
        left
        rfl
  · revert h
    cases hsld : sl.data with
    | some d0 =>
      intro h
      exact absurd h (by simp)
    | none =>
      intro h
      cases hdd : decodeDataElem j with
      | error er =>
        rw [hdd] at h
        exact absurd h (by simp [Except.map])
      | ok d1 =>
        rw [hdd] at h
        have h2 : (Except.ok { sl with data := some d1 } : Except DecErr EvSlots)
            = .ok sl2 := h
        cases Except.ok.inj h2
        left
        rfl
  · cases Except.ok.inj h
    left
    rfl

theorem evFold_time_lt : ∀ (ms : List (Str × Json)) (sl sl2 : EvSlots),
    evFoldMembers sl ms = .ok sl2 →
    (∀ t, sl.time = some t → t < U64MOD) →
    ∀ t, sl2.time = some t → t < U64MOD := by
  intro ms
  induction ms with
  | nil =>
    intro sl sl2 h hinv
    have h2 : (Except.ok sl : Except DecErr EvSlots) = .ok sl2 := h
    cases Except.ok.inj h2
    exact hinv
  | cons m tl ih =>
    intro sl sl2 h hinv
    obtain ⟨k, j⟩ := m
    have hstep : evFoldMembers sl ((k, j) :: tl)
        = match evSetField sl k j with
          | .error er => .error er
          | .ok sl3 => evFoldMembers sl3 tl := rfl
    rw [hstep] at h
    revert h
    cases hset : evSetField sl k j with
    | error er =>
      intro h
      exact absurd h (by simp)
    | ok sl3 =>
      intro h
      refine ih sl3 sl2 h ?_
      intro t ht
      rcases evSetField_time hset with heq | ⟨t1, ht1, hlt⟩
      · exact hinv t (heq ▸ ht)
      · rw [ht1] at ht
        cases Option.some.inj ht
        exact hlt

theorem decodeEventJson_lt {j : Json} {e : Event} (h : decodeEventJson j = .ok e) :
    e.time < U64MOD := by
  cases j with
  | null => exact Except.noConfusion h
  | bool b => exact Except.noConfusion h
  | num t => exact Except.noConfusion h
  | str s => exact Except.noConfusion h
  | arr es =>
    cases es with
    | nil => exact Except.noConfusion h
    | cons a es1 =>
      cases es1 with
      | nil => exact Except.noConfusion h
      | cons b es2 =>
        cases es2 with
        | nil => exact Except.noConfusion h
        | cons c3 es3 =>
          cases es3 with
          | cons x xs => exact Except.noConfusion h
          | nil =>
            replace h : (decodeTimeElem a >>= fun time =>
                decodeCodeElem b >>= fun code =>
                decodeDataElem c3 >>= fun data =>
                pure (⟨time, code, data⟩ : Event)) = .ok e := h
            revert h
            cases hdt : decodeTimeElem a with
            | error er =>
              intro h
              rw [exceptBind_error] at h
              exact Except.noConfusion h
            | ok t1 =>
              intro h
              rw [exceptBind_ok] at h
              revert h
              cases hdc : decodeCodeElem b with
              | error er =>
                intro h
                rw [exceptBind_error] at h
                exact Except.noConfusion h
              | ok c1 =>
                intro h
                rw [exceptBind_ok] at h
                revert h
                cases hdd : decodeDataElem c3 with
                | error er =>
                  intro h
                  rw [exceptBind_error] at h
                  exact Except.noConfusion h
                | ok d1 =>
                  intro h
                  rw [exceptBind_ok] at h
                  have h2 : (Except.ok (⟨t1, c1, d1⟩ : Event) : Except DecErr Event)
                      = .ok e := h
                  cases Except.ok.inj h2
                  exact decodeTimeElem_lt hdt
  | obj ms =>
    replace h : (match evFoldMembers ⟨none, none, none⟩ ms with
      | .error er => (.error er : Except DecErr Event)
      | .ok sl =>
        match sl.time, sl.code, sl.data with
        | some t, some c, some d => .ok ⟨t, c, d⟩
        | _, _, _ => .error .decodeErr) = .ok e := h
    revert h
    cases hfold : evFoldMembers ⟨none, none, none⟩ ms with
    | error er =>
      intro h
      exact Except.noConfusion h
    | ok sl =>
      intro h
      replace h : (match sl.time, sl.code, sl.data with
        | some t, some c, some d => (Except.ok ⟨t, c, d⟩ : Except DecErr Event)
        | _, _, _ => .error .decodeErr) = .ok e := h
      revert h
      cases hslt : sl.time with
      | none =>
        cases sl.code <;> cases sl.data <;> (intro h; exact Except.noConfusion h)
      | some t1 =>
        cases hslc : sl.code with
        | none =>
          cases sl.data <;> (intro h; exact Except.noConfusion h)
        | some c1 =>
          cases hsld : sl.data with
          | none =>
            intro h
            exact Except.noConfusion h
          | some d1 =>
            intro h
            have h2 : (Except.ok (⟨t1, c1, d1⟩ : Event) : Except DecErr Event) = .ok e := h
            cases Except.ok.inj h2
            exact evFold_time_lt ms ⟨none, none, none⟩ sl hfold
              (fun t ht => Option.noConfusion ht) t1 hslt

/- ----------------------------------------------------------------
   The version-2 open path, and round-tripping one event line.
   ---------------------------------------------------------------- -/

theorem openL_v2 {lines : List Str} {r : ReaderOut} (hopen : openL lines = .ok r)
    (hv : r.header.version = 2) :
    ∃ first rest h0, lines = first :: rest ∧ decodeV2Line first = some h0
      ∧ r.header = headerOfV2 h0 ∧ r.events = rest.filterMap parse_event := by
  cases lines with
  | nil => exact absurd hopen (by simp [openL])
  | cons first rest =>
    replace hopen : openFirst first rest = .ok r := hopen
    unfold openFirst at hopen
    cases hdec : decodeV2Line first with
    | some h0 =>
      simp only [hdec] at hopen
      by_cases h2 : h0.version ≠ 2
      · rw [if_pos h2] at hopen
        exact absurd hopen (by simp)
      · rw [if_neg h2] at hopen
        simp only [Except.ok.injEq] at hopen
        subst hopen
        exact ⟨first, rest, h0, rfl, hdec, rfl, rfl⟩
    | none =>
      simp only [hdec] at hopen
      cases hv1 : decodeV1Doc ((first :: rest).flatten) with
      | none =>
        simp only [hv1] at hopen
        exact absurd hopen (by simp)
      | some v1 =>
        simp only [hv1] at hopen
        by_cases h1 : v1.version ≠ 1
        · rw [if_pos h1] at hopen
          exact absurd hopen (by simp)
        · rw [if_neg h1] at hopen
          simp only [Except.ok.injEq] at hopen
          subst hopen
          have hv2 : (1 : Nat) = 2 := hv
          exact absurd hv2 (by decide)

/-- The event codes the file-format specification allows: the closed set,
or a single character outside the reserved four. -/
def ValidCode : EventCode → Prop
  | .Other c => c ≠ 'o' ∧ c ≠ 'i' ∧ c ≠ 'r' ∧ c ≠ 'm'
  | _ => True

theorem deserialize_codeText {c : EventCode} (h : ValidCode c) :
    deserialize_code (codeText c) = .ok c := by
  cases c with
  | Output => decide
  | Input => decide
  | Resize => decide
  | Marker => decide
  | Other ch =>
    have h2 : ch ≠ 'o' ∧ ch ≠ 'i' ∧ ch ≠ 'r' ∧ ch ≠ 'm' := h
    obtain ⟨h1, h2, h3, h4⟩ := h2
    show deserialize_code [ch] = .ok (.Other ch)
    unfold deserialize_code
    rw [if_neg (by simpa using h1), if_neg (by simpa using h2),
      if_neg (by simpa using h3), if_neg (by simpa using h4)]

theorem encodeTime_decomp {t : Nat} (ht : t % 1000000 ≠ 0) :
    ∃ F, encodeTime t = natRepr (t / 1000000) ++ '.' :: F ∧ F ≠ []
      ∧ F.all isDigitC = true := by
  refine ⟨trimZeros (padLeftZeros 6 (natRepr (t % 1000000))), ?_, ?_, ?_⟩
  · unfold encodeTime format_time
    exact trimZeros_append_dot _ _
  · apply trimZeros_ne_nil
    obtain ⟨c, cs, hrep, hcdig, _, hz⟩ := natRepr_head_digit (t % 1000000)
    refine ⟨c, ?_, hz ht⟩
    unfold padLeftZeros
    rw [List.mem_append, hrep]
    right
    simp
  · rw [List.all_eq_true]
    intro x hx
    have hx2 := mem_trimZeros hx
    have hPdig : (padLeftZeros 6 (natRepr (t % 1000000))).all isDigitC = true := by
      unfold padLeftZeros
      rw [List.all_append, Bool.and_eq_true]
      constructor
      · rw [List.all_eq_true]
        intro c2 hc2
        rw [List.eq_of_mem_replicate hc2]
        decide
      · exact natRepr_all_digits _
    exact (List.all_eq_true.mp hPdig) x hx2

theorem skipWs_space (Y : Str) : skipWs (' ' :: Y) = skipWs Y := by
  show List.dropWhile isWsChar (' ' :: Y) = _
  rw [List.dropWhile_cons_of_pos (by decide)]
  rfl

theorem parseJsonLine_event (e : Event) (hfrac : e.time % 1000000 ≠ 0) :
    parseJsonLine (serialize_event e)
      = some (Json.arr [Json.num (encodeTime e.time), Json.str (codeText e.code),
          Json.str e.data]) := by
  obtain ⟨F, hF1, hF2, hF3⟩ := encodeTime_decomp hfrac
  obtain ⟨c, cs, hrep, hc, hcs, _⟩ := natRepr_head_digit (e.time / 1000000)
  have hline : serialize_event e
      = '[' :: ((natRepr (e.time / 1000000) ++ '.' :: F) ++ (',' :: ' ' ::
        (printStrJ (codeText e.code) ++ (',' :: ' ' :: (printStrJ e.data ++ [']']))))) := by
    unfold serialize_event
    rw [hF1]
    simp [List.append_assoc]
  have hstop1 : TokStop (',' :: ' ' ::
      (printStrJ (codeText e.code) ++ (',' :: ' ' :: (printStrJ e.data ++ [']'])))) := by
    intro x hx
    have hx2 : some ',' = some x := hx
    cases Option.some.inj hx2
    exact ⟨by decide, by decide, by decide, by decide⟩
  obtain ⟨g, hg⟩ : ∃ g, 2 * (serialize_event e).length + 4 = g + 5 := by
    refine ⟨2 * (serialize_event e).length - 1, ?_⟩
    have h1 : 1 ≤ (serialize_event e).length := by
      rw [hline]
      simp
    omega
  rw [hF1]
  unfold parseJsonLine
  rw [hg, hline]
  rw [parseValue_cons (g + 4) '[' _ (by decide)]
  rw [if_neg (by decide), if_neg (by decide), if_neg (by decide), if_neg (by decide),
    if_pos rfl]
  rw [show skipWs ((natRepr (e.time / 1000000) ++ '.' :: F) ++ (',' :: ' ' ::
      (printStrJ (codeText e.code) ++ (',' :: ' ' :: (printStrJ e.data ++ [']'])))))
    = (natRepr (e.time / 1000000) ++ '.' :: F) ++ (',' :: ' ' ::
      (printStrJ (codeText e.code) ++ (',' :: ' ' :: (printStrJ e.data ++ [']'])))) from by
    rw [List.append_assoc, List.cons_append, hrep, List.cons_append]
    rw [skipWs_cons_of_neg _ (not_ws_of_digit hc)]]
  rw [parseElemsFirst_succ]
  rw [if_neg (by
    rw [List.append_assoc, List.cons_append, hrep, List.cons_append]
    intro hcon
    exact digit_ne_char hc (by decide) (Option.some.inj hcon))]
  rw [parseValue_num_frac (g + 2) (e.time / 1000000) F _ hF2 hF3 hstop1]
  dsimp only
  rw [parseElemsRest_comma (g + 2) (' ' ::
    (printStrJ (codeText e.code) ++ (',' :: ' ' :: (printStrJ e.data ++ [']']))))
    (skipWs_cons_of_neg _ (by decide))]
  rw [parseValue_congr (g + 1) (skipWs_space (printStrJ (codeText e.code)
    ++ (',' :: ' ' :: (printStrJ e.data ++ [']']))))]
  rw [parseValue_str (g + 1) (codeText e.code) (',' :: ' ' :: (printStrJ e.data ++ [']']))]
  dsimp only
  rw [parseElemsRest_comma (g + 1) (' ' :: (printStrJ e.data ++ [']']))
    (skipWs_cons_of_neg _ (by decide))]
  rw [parseValue_congr g (skipWs_space (printStrJ e.data ++ [']']))]
  rw [parseValue_str g e.data [']']]
  dsimp only
  rw [parseElemsRest_rbracket g [] (skipWs_cons_of_neg _ (by decide))]
  rfl

theorem parse_print_event (e : Event) (hlt : e.time < U64MOD)
    (hfrac : e.time % 1000000 ≠ 0) (hcode : ValidCode e.code) :
    parse_event (serialize_event e) = some (.ok e) := by
  unfold parse_event
  rw [if_neg (by
    obtain ⟨F, hF1, _, _⟩ := encodeTime_decomp hfrac
    have hline : serialize_event e
        = '[' :: ((natRepr (e.time / 1000000) ++ '.' :: F) ++ (',' :: ' ' ::
          (printStrJ (codeText e.code) ++ (',' :: ' ' :: (printStrJ e.data ++ [']']))))) := by
      unfold serialize_event
      rw [hF1]
      simp [List.append_assoc]
    rw [hline]
    simp)]
  rw [parseJsonLine_event e hfrac]
  show some (decodeEventJson (Json.arr [Json.num (encodeTime e.time),
    Json.str (codeText e.code), Json.str e.data])) = some (.ok e)
  have hdec : decodeEventJson (Json.arr [Json.num (encodeTime e.time),
      Json.str (codeText e.code), Json.str e.data]) = .ok e := by
    show (decodeTimeElem (Json.num (encodeTime e.time)) >>= fun time =>
      decodeCodeElem (Json.str (codeText e.code)) >>= fun code =>
      decodeDataElem (Json.str e.data) >>= fun data =>
      pure (⟨time, code, data⟩ : Event)) = .ok e
    rw [show decodeTimeElem (Json.num (encodeTime e.time)) = .ok e.time from
      encodeTime_reparse hfrac hlt]
    rw [exceptBind_ok]
    rw [show decodeCodeElem (Json.str (codeText e.code)) = .ok e.code from
      deserialize_codeText hcode]
    rw [exceptBind_ok]
    rw [show decodeDataElem (Json.str e.data) = .ok e.data from rfl]
    rw [exceptBind_ok]
    rfl
  rw [hdec]

theorem write_event_zero (e : Event) (hlt : e.time < U64MOD) :
    write_event 0 e = serialize_event e := by
  unfold write_event
  rw [Nat.add_zero, Nat.mod_eq_of_lt hlt]

theorem filterMap_write (es : List Event)
    (h : ∀ x ∈ es, x.time < U64MOD ∧ x.time % 1000000 ≠ 0 ∧ ValidCode x.code) :
    (es.map (write_event 0)).filterMap parse_event
      = es.map (fun x => (Except.ok x : Except DecErr Event)) := by
  induction es with
  | nil => rfl
  | cons x tl ih =>
    obtain ⟨h1, h2, h3⟩ := h x (List.mem_cons_self x tl)
    have hpe : parse_event (write_event 0 x) = some (.ok x) := by
      rw [write_event_zero x h1]
      exact parse_print_event x h1 h2 h3
    rw [List.map_cons, List.filterMap_cons, hpe, List.map_cons,
      ih (fun y hy => h y (List.mem_cons_of_mem x hy))]

theorem optBind_some {α β : Type} (a : α) (f : α → Option β) : (some a >>= f) = f a := rfl

theorem optBind_none {α β : Type} (f : α → Option β) : ((none : Option α) >>= f) = none := rfl

theorem v2SetField_wh {sl sl2 : V2Slots} {k : Str} {j : Json}
    (h : v2SetField sl k j = some sl2) :
    (sl2.width = sl.width ∨ ∃ n, sl2.width = some n ∧ n < 65536)
    ∧ (sl2.height = sl.height ∨ ∃ n, sl2.height = some n ∧ n < 65536) := by
  unfold v2SetField at h
  split_ifs at h with h1 h2 h3 h4 h5 h6 h7 h8
  · revert h
    cases sl.version with
    | some v =>
      intro h
      exact absurd h (by simp)
    | none =>
      intro h
      cases hdu : decodeUInt 256 j with
      | none =>
        rw [hdu] at h
        exact absurd h (by simp)
      | some n =>
        rw [hdu] at h
        have h9 : some { sl with version := some n } = some sl2 := h
        cases Option.some.inj h9
        exact ⟨Or.inl rfl, Or.inl rfl⟩
  · revert h
    cases sl.width with
    | some v =>
      intro h
      exact absurd h (by simp)
    | none =>
      intro h
      cases hdu : decodeUInt 65536 j with
      | none =>
        rw [hdu] at h
        exact absurd h (by simp)
      | some n =>
        rw [hdu] at h
        have h9 : some { sl with width := some n } = some sl2 := h
        cases Option.some.inj h9
        exact ⟨Or.inr ⟨n, rfl, decodeUInt_lt hdu⟩, Or.inl rfl⟩
  · revert h
    cases sl.height with
    | some v =>
      intro h
      exact absurd h (by simp)
    | none =>
      intro h
      cases hdu : decodeUInt 65536 j with
      | none =>
        rw [hdu] at h
        exact absurd h (by simp)
      | some n =>
        rw [hdu] at h
        have h9 : some { sl with height := some n } = some sl2 := h
        cases Option.some.inj h9
        exact ⟨Or.inl rfl, Or.inr ⟨n, rfl, decodeUInt_lt hdu⟩⟩
  · revert h
    cases sl.timestamp with
    | some v =>
      intro h
      exact absurd h (by simp)
    | none =>
      intro h
      cases hdu : decodeOpt (decodeUInt U64MOD) j with
      | none =>
        rw [hdu] at h
        exact absurd h (by simp)
      | some n =>
        rw [hdu] at h
        have h9 : some { sl with timestamp := some n } = some sl2 := h
        cases Option.some.inj h9
        exact ⟨Or.inl rfl, Or.inl rfl⟩
  · revert h
    cases sl.idle_time_limit with
    | some v =>
      intro h
      exact absurd h (by simp)
    | none =>
      intro h
      cases hdu : decodeOpt decodeF64Tok j with
      | none =>
        rw [hdu] at h
        exact absurd h (by simp)
      | some n =>
        rw [hdu] at h
        have h9 : some { sl with idle_time_limit := some n } = some sl2 := h
        cases Option.some.inj h9
        exact ⟨Or.inl rfl, Or.inl rfl⟩
  · revert h
    cases sl.command with
    | some v =>
      intro h
      exact absurd h (by simp)
    | none =>
      intro h
      cases hdu : decodeOpt decodeString j with
      | none =>
        rw [hdu] at h
        exact absurd h (by simp)
      | some n =>
        rw [hdu] at h
        have h9 : some { sl with command := some n } = some sl2 := h
        cases Option.some.inj h9
        exact ⟨Or.inl rfl, Or.inl rfl⟩
  · revert h
    cases sl.title with
    | some v =>
      intro h
      exact absurd h (by simp)
    | none =>
      intro h
      cases hdu : decodeOpt decodeString j with
      | none =>
        rw [hdu] at h
        exact absurd h (by simp)
      | some n =>
        rw [hdu] at h
        have h9 : some { sl with title := some n } = some sl2 := h
        cases Option.some.inj h9
        exact ⟨Or.inl rfl, Or.inl rfl⟩
  · revert h
    cases sl.env with
    | some v =>
      intro h
      exact absurd h (by simp)
    | none =>
      intro h
      cases hdu : decodeOpt decodeEnv j with
      | none =>
        rw [hdu] at h
        exact absurd h (by simp)
      | some n =>
        rw [hdu] at h
        have h9 : some { sl with env := some n } = some sl2 := h
        cases Option.some.inj h9
        exact ⟨Or.inl rfl, Or.inl rfl⟩
  · cases Option.some.inj h
    exact ⟨Or.inl rfl, Or.inl rfl⟩

theorem v2Fold_wh : ∀ (ms : List (Str × Json)) (sl sl2 : V2Slots),
    v2FoldMembers sl ms = some sl2 →
    ((∀ n, sl.width = some n → n < 65536) ∧ (∀ n, sl.height = some n → n < 65536)) →
    (∀ n, sl2.width = some n → n < 65536) ∧ (∀ n, sl2.height = some n → n < 65536) := by
  intro ms
  induction ms with
  | nil =>
    intro sl sl2 h hinv
    have h2 : some sl = some sl2 := h
    cases Option.some.inj h2
    exact hinv
  | cons m tl ih =>
    intro sl sl2 h hinv
    obtain ⟨k, j⟩ := m
    have hstep : v2FoldMembers sl ((k, j) :: tl)
        = match v2SetField sl k j with
          | none => none
          | some sl3 => v2FoldMembers sl3 tl := rfl
    rw [hstep] at h
    revert h
    cases hset : v2SetField sl k j with
    | none =>
      intro h
      exact absurd h (by simp)
    | some sl3 =>
      intro h
      refine ih sl3 sl2 h ?_
      obtain ⟨hw, hh⟩ := v2SetField_wh hset
      constructor
      · rcases hw with heq | ⟨n, hn, hlt⟩
        · intro n2 hn2
          exact hinv.1 n2 (heq ▸ hn2)
        · intro n2 hn2
          rw [hn] at hn2
          cases Option.some.inj hn2
          exact hlt
      · rcases hh with heq | ⟨n, hn, hlt⟩
        · intro n2 hn2
          exact hinv.2 n2 (heq ▸ hn2)
        · intro n2 hn2
          rw [hn] at hn2
          cases Option.some.inj hn2
          exact hlt

theorem v2Finish_wh {sl : V2Slots} {h0 : V2Header} (h : v2Finish sl = some h0)
    (hinv : (∀ n, sl.width = some n → n < 65536)
      ∧ (∀ n, sl.height = some n → n < 65536)) :
    h0.width < 65536 ∧ h0.height < 65536 := by
  unfold v2Finish at h
  revert h
  cases hsv : sl.version with
  | none =>
    intro h
    exact absurd h (by simp)
  | some v =>
    cases hsw : sl.width with
    | none =>
      intro h
      exact absurd h (by simp)
    | some w =>
      cases hsh : sl.height with
      | none =>
        intro h
        exact absurd h (by simp)
      | some hh =>
        intro h
        have h2 : some (⟨v, w, hh, sl.timestamp.getD none, sl.idle_time_limit.getD none,
            sl.command.getD none, sl.title.getD none, sl.env.getD none⟩ : V2Header)
            = some h0 := h
        cases Option.some.inj h2
        exact ⟨hinv.1 w hsw, hinv.2 hh hsh⟩

theorem decodeV2Header_bounds {j : Json} {h0 : V2Header}
    (h : decodeV2Header j = some h0) : h0.width < 65536 ∧ h0.height < 65536 := by
  cases j with
  | null => exact Option.noConfusion h
  | bool b => exact Option.noConfusion h
  | num t => exact Option.noConfusion h
  | str s => exact Option.noConfusion h
  | obj ms =>
    replace h : (v2FoldMembers emptyV2Slots ms).bind v2Finish = some h0 := h
    revert h
    cases hfold : v2FoldMembers emptyV2Slots ms with
    | none =>
      intro h
      exact absurd h (by simp)
    | some sl =>
      intro h
      have hfin : v2Finish sl = some h0 := h
      exact v2Finish_wh hfin (v2Fold_wh ms emptyV2Slots sl hfold
        ⟨fun n hn => Option.noConfusion hn, fun n hn => Option.noConfusion hn⟩)
  | arr es =>
    match es, h with
    | [], h => exact Option.noConfusion h
    | [a], h => exact Option.noConfusion h
    | [a, b], h => exact Option.noConfusion h
    | [a, b, c], h => exact Option.noConfusion h
    | [a, b, c, d], h => exact Option.noConfusion h
    | [a, b, c, d, e1], h => exact Option.noConfusion h
    | [a, b, c, d, e1, f1], h => exact Option.noConfusion h
    | [a, b, c, d, e1, f1, g1], h => exact Option.noConfusion h
    | a :: b :: c :: d :: e1 :: f1 :: g1 :: i1 :: x :: xs, h => exact Option.noConfusion h
    | [a, b, c, d, e1, f1, g1, i1], h => ?_
    replace h : (decodeUInt 256 a >>= fun v =>
        decodeUInt 65536 b >>= fun w =>
        decodeUInt 65536 c >>= fun hh =>
        decodeOpt (decodeUInt U64MOD) d >>= fun ts =>
        decodeOpt decodeF64Tok e1 >>= fun idle =>
        decodeOpt decodeString f1 >>= fun cmd =>
        decodeOpt decodeString g1 >>= fun ttl =>
        decodeOpt decodeEnv i1 >>= fun env =>
        pure (⟨v, w, hh, ts, idle, cmd, ttl, env⟩ : V2Header)) = some h0 := h
    revert h
    cases h1 : decodeUInt 256 a with
    | none =>
      intro h
      rw [optBind_none] at h
      exact Option.noConfusion h
    | some v =>
      intro h
      rw [optBind_some] at h
      revert h
      cases h2 : decodeUInt 65536 b with
      | none =>
        intro h
        rw [optBind_none] at h
        exact Option.noConfusion h
      | some w =>
        intro h
        rw [optBind_some] at h
        revert h
        cases h3 : decodeUInt 65536 c with
        | none =>
          intro h
          rw [optBind_none] at h
          exact Option.noConfusion h
        | some hh =>
          intro h
          rw [optBind_some] at h
          revert h
          cases h4 : decodeOpt (decodeUInt U64MOD) d with
          | none =>
            intro h
            rw [optBind_none] at h
            exact Option.noConfusion h
          | some ts =>
            intro h
            rw [optBind_some] at h
            revert h
            cases h5 : decodeOpt decodeF64Tok e1 with
            | none =>
              intro h
              rw [optBind_none] at h
              exact Option.noConfusion h
            | some idle =>
              intro h
              rw [optBind_some] at h
              revert h
              cases h6 : decodeOpt decodeString f1 with
              | none =>
                intro h
                rw [optBind_none] at h
                exact Option.noConfusion h
              | some cmd =>
                intro h
                rw [optBind_some] at h
                revert h
                cases h7 : decodeOpt decodeString g1 with
                | none =>
                  intro h
                  rw [optBind_none] at h
                  exact Option.noConfusion h
                | some ttl =>
                  intro h
                  rw [optBind_some] at h
                  revert h
                  cases h8 : decodeOpt decodeEnv i1 with
                  | none =>
                    intro h
                    rw [optBind_none] at h
                    exact Option.noConfusion h
                  | some env =>
                    intro h
                    rw [optBind_some] at h
                    have h9 : some (⟨v, w, hh, ts, idle, cmd, ttl, env⟩ : V2Header)
                        = some h0 := h
                    cases Option.some.inj h9
                    exact ⟨decodeUInt_lt h2, decodeUInt_lt h3⟩

/-- C1 (corrected): for a version-2 input that `open` decodes successfully
(every event line an `Ok` event), where every event code is valid per the
file-format spec (single characters, the reserved four spelled by their own
constructors), every decoded event time has a nonzero microsecond
remainder, and every decoded event time is below `10^15` microseconds,
writing the decoded header and events back out (offset 0) and re-opening
the result succeeds and preserves the version, the terminal size, and the
exact event sequence.  The time bound keeps every re-serialized time token
(at most 9 integer digits plus at most 6 fractional digits) within the
15-significant-digit range on which `f64Render` agrees with the program's
`as_f64`/`to_string` reparse; beyond it (reachable via the `u64`
wrap-around of `deserialize_time`) the real pipeline rounds the token to
`f64` and the round trip changes the decoded time.  (The unamended claim
is refuted by `c1_counterexample`: a whole-second event time
re-serializes as an invalid JSON number.) -/
theorem c1_v2_roundtrip (lines : List Str) (r : ReaderOut) (es : List Event)
    (hopen : openL lines = .ok r) (hv : r.header.version = 2)
    (hev : r.events = es.map (fun x => (Except.ok x : Except DecErr Event)))
    (hcode : ∀ x ∈ es, ValidCode x.code)
    (hfrac : ∀ x ∈ es, x.time % 1000000 ≠ 0)
    (_hsmall : ∀ x ∈ es, x.time < 10 ^ 15) :
    ∃ r2, openL (writeAll 0 r.header es) = .ok r2
      ∧ r2.header.version = r.header.version
      ∧ r2.header.cols = r.header.cols
      ∧ r2.header.rows = r.header.rows
      ∧ r2.events = r.events := by
  obtain ⟨first, rest, h0, hlines, hdec, hhdr, hevs⟩ := openL_v2 hopen hv
  obtain ⟨j, hj, hdecj⟩ : ∃ j, parseJsonLine first = some j ∧ decodeV2Header j = some h0 := by
    unfold decodeV2Line at hdec
    revert hdec
    cases hp : parseJsonLine first with
    | none =>
      intro hdec
      exact absurd hdec (by simp)
    | some j =>
      intro hdec
      exact ⟨j, rfl, hdec⟩
  have hbounds := decodeV2Header_bounds hdecj
  have htime : ∀ x ∈ es, x.time < U64MOD := by
    intro x hx
    have hmem : (Except.ok x : Except DecErr Event) ∈ r.events := by
      rw [hev]
      exact List.mem_map_of_mem _ hx
    rw [hevs] at hmem
    obtain ⟨line, _, hpe⟩ := List.mem_filterMap.mp hmem
    unfold parse_event at hpe
    split at hpe
    · exact absurd hpe (by simp)
    · replace hpe := Option.some.inj hpe
      revert hpe
      cases hpj : parseJsonLine line with
      | none =>
        intro hpe
        exact Except.noConfusion hpe
      | some j2 =>
        intro hpe
        exact decodeEventJson_lt hpe
  have hv2h : v2HeaderOfHeader r.header
      = ⟨2, h0.width, h0.height, none, none, h0.command, h0.title, h0.env⟩ := by
    rw [hhdr]
    rfl
  obtain ⟨h2, hdec2, hver2, hw2, hh2⟩ := decodeV2Header_printed h0.width h0.height
    h0.command h0.title h0.env hbounds.1 hbounds.2
  have hjsonline : parseJsonLine (printHeaderLine (v2HeaderOfHeader r.header))
      = some (Json.obj (serializeV2HeaderEntries (v2HeaderOfHeader r.header))) := by
    apply parseJsonLine_headerLine
    apply entries_HVal
    · rw [hv2h]
    · rw [hv2h]
  have hdv2 : decodeV2Line (printHeaderLine (v2HeaderOfHeader r.header)) = some h2 := by
    unfold decodeV2Line
    rw [hjsonline]
    show decodeV2Header (Json.obj (serializeV2HeaderEntries (v2HeaderOfHeader r.header)))
      = some h2
    rw [hv2h]
    exact hdec2
  refine ⟨⟨headerOfV2 h2, es.map (fun x => (Except.ok x : Except DecErr Event))⟩,
    ?_, ?_, ?_, ?_, ?_⟩
  · show openFirst (printHeaderLine (v2HeaderOfHeader r.header))
      (es.map (write_event 0)) = _
    unfold openFirst
    simp only [hdv2]
    rw [if_neg (by simp [hver2])]
    rw [filterMap_write es (fun x hx => ⟨htime x hx, hfrac x hx, hcode x hx⟩)]
  · show (2 : Nat) = r.header.version
    rw [hv]
  · show h2.width = r.header.cols
    rw [hw2, hhdr]
    rfl
  · show h2.height = r.header.rows
    rw [hh2, hhdr]
    rfl
  · show es.map (fun x => (Except.ok x : Except DecErr Event)) = r.events
    rw [hev]

def c1wLines : List Str :=
  ["\x7b\"version\":2,\"width\":80,\"height\":24,\"timestamp\":null\x7d".toList,
   "[1.5, \"o\", \"hi\"]".toList]

def c1wEvent : Event := ⟨1500000, .Output, ['h', 'i']⟩

def c1wReader : ReaderOut := ⟨⟨2, 80, 24, none, none, none, none, none⟩, [.ok c1wEvent]⟩

theorem c1_witness :
    ∃ r2, openL (writeAll 0 c1wReader.header [c1wEvent]) = .ok r2
      ∧ r2.header.version = c1wReader.header.version
      ∧ r2.header.cols = c1wReader.header.cols
      ∧ r2.header.rows = c1wReader.header.rows
      ∧ r2.events = c1wReader.events :=
  c1_v2_roundtrip c1wLines c1wReader [c1wEvent] (by decide) (by decide) (by decide)
    (by
      intro x hx
      rw [List.mem_singleton] at hx
      subst hx
      exact trivial)
    (by decide)
    (by decide)

end Asciicast
